import Mathlib

/-!
Verification development for the ms2mp4 batch video-converter (src/bin.js,
src/config.js).  The JavaScript source is shallowly embedded: JS `Map`s
become insertion-ordered association lists, JS numbers become exact
rationals (ℚ), the ffmpeg stderr stream becomes a list of chunks carrying
the first regex match of each of the two scanned patterns, and the
orchestration loop becomes a trace-producing function.
-/

namespace Ms2Mp4

/-! ## Insertion-ordered maps (JS `Map` semantics)

`Map.set` on an existing key updates the value in place (keeping the
original insertion position); on a new key it appends.  `Map.get` returns
the value at the key; `Map.delete` removes the entry. -/

def mapSet {α β : Type} [DecidableEq α] : List (α × β) → α → β → List (α × β)
  | [], k, v => [(k, v)]
  | e :: rest, k, v => if e.1 = k then (k, v) :: rest else e :: mapSet rest k v

def mapGet {α β : Type} [DecidableEq α] : List (α × β) → α → Option β
  | [], _ => none
  | e :: rest, k => if e.1 = k then some e.2 else mapGet rest k

def mapDelete {α β : Type} [DecidableEq α] (m : List (α × β)) (k : α) : List (α × β) :=
  m.filter (fun e => decide (e.1 ≠ k))

theorem mapGet_mapSet {α β : Type} [DecidableEq α] (m : List (α × β)) (k k' : α) (v : β) :
    mapGet (mapSet m k v) k' = if k' = k then some v else mapGet m k' := by
  induction m with
  | nil =>
      rcases eq_or_ne k' k with h | h
      · subst h; simp [mapSet, mapGet]
      · simp [mapSet, mapGet, h, h.symm]
  | cons e rest ih =>
      rcases eq_or_ne e.1 k with he | he
      · rcases eq_or_ne k' k with h | h
        · subst h; simp [mapSet, mapGet, he]
        · simp [mapSet, mapGet, he, h, h.symm]
      · rcases eq_or_ne k' e.1 with h | h
        · subst h; simp [mapSet, mapGet, he]
        · simp [mapSet, mapGet, he, h.symm, ih]

theorem mapGet_mapDelete {α β : Type} [DecidableEq α] (m : List (α × β)) (k k' : α) :
    mapGet (mapDelete m k) k' = if k' = k then none else mapGet m k' := by
  induction m with
  | nil => simp [mapDelete, mapGet]
  | cons e rest ih =>
      rcases eq_or_ne e.1 k with he | he
      · have hdel : mapDelete (e :: rest) k = mapDelete rest k := by
          simp [mapDelete, List.filter_cons, he]
        rw [hdel, ih]
        rcases eq_or_ne k' k with h | h
        · simp [h]
        · simp [mapGet, h, he, h.symm]
      · have hdel : mapDelete (e :: rest) k = e :: mapDelete rest k := by
          simp [mapDelete, List.filter_cons, he]
        rw [hdel]
        rcases eq_or_ne e.1 k' with h | h
        · have hk : ¬ k' = k := fun hh => he (h.trans hh)
          simp [mapGet, h, hk]
        · simp [mapGet, h, ih]

theorem mem_mapSet {α β : Type} [DecidableEq α] (m : List (α × β)) (k : α) (v : β) :
    ∀ e ∈ mapSet m k v, e ∈ m ∨ e = (k, v) := by
  induction m with
  | nil => intro e he; simp [mapSet] at he; simp [he]
  | cons x rest ih =>
      intro e he
      by_cases hx : x.1 = k
      · simp [mapSet, hx] at he
        rcases he with h | h
        · right; simp [h]
        · left; simp [h]
      · simp [mapSet, hx] at he
        rcases he with h | h
        · left; simp [h]
        · rcases ih e h with h' | h'
          · left; simp [h']
          · right; exact h'

theorem keys_mapSet {α β : Type} [DecidableEq α] (m : List (α × β)) (k : α) (v : β) :
    (mapSet m k v).map Prod.fst =
      if k ∈ m.map Prod.fst then m.map Prod.fst else m.map Prod.fst ++ [k] := by
  induction m with
  | nil => simp [mapSet]
  | cons e rest ih =>
      by_cases he : e.1 = k
      · simp [mapSet, he]
      · have : ¬ k = e.1 := fun h => he h.symm
        by_cases hk : k ∈ rest.map Prod.fst <;> simp [mapSet, he, this, hk, ih]

theorem nodup_keys_mapSet {α β : Type} [DecidableEq α] (m : List (α × β)) (k : α) (v : β)
    (h : (m.map Prod.fst).Nodup) : ((mapSet m k v).map Prod.fst).Nodup := by
  rw [keys_mapSet]
  by_cases hk : k ∈ m.map Prod.fst
  · simpa [hk] using h
  · simp only [hk, if_false]
    exact h.append (List.nodup_singleton k)
      (fun a ha hb => hk ((List.mem_singleton.mp hb) ▸ ha))

theorem mapGet_mem {α β : Type} [DecidableEq α] (m : List (α × β)) (k : α) (v : β)
    (h : mapGet m k = some v) : (k, v) ∈ m := by
  induction m with
  | nil => simp [mapGet] at h
  | cons e rest ih =>
      obtain ⟨a, b⟩ := e
      rcases eq_or_ne a k with he | he
      · subst he
        simp [mapGet] at h
        subst h
        exact List.mem_cons_self _ _
      · simp [mapGet, he] at h
        exact List.mem_cons_of_mem _ (ih h)

theorem mem_val_eq_of_nodup_keys {α β : Type} [DecidableEq α] (m : List (α × β))
    (hnd : (m.map Prod.fst).Nodup) (k : α) (v₁ v₂ : β)
    (h₁ : (k, v₁) ∈ m) (h₂ : (k, v₂) ∈ m) : v₁ = v₂ := by
  induction m with
  | nil => simp at h₁
  | cons e rest ih =>
      simp only [List.map_cons, List.nodup_cons] at hnd
      rcases List.mem_cons.mp h₁ with h₁ | h₁ <;> rcases List.mem_cons.mp h₂ with h₂ | h₂
      · exact congrArg Prod.snd (h₁.trans h₂.symm)
      · have hk : e.1 = k := by rw [← h₁]
        exact absurd (by rw [hk]; simpa using List.mem_map_of_mem Prod.fst h₂) hnd.1
      · have hk : e.1 = k := by rw [← h₂]
        exact absurd (by rw [hk]; simpa using List.mem_map_of_mem Prod.fst h₁) hnd.1
      · exact ih hnd.2 h₁ h₂

/-! ## Path and filename helpers (node `path` module, as used by bin.js)

`path.extname` returns the suffix from the last dot of the basename,
provided that dot is not the leading character; `path.parse(file).name` is
the rest.  `path.flatten(dir, file)` is modelled as concatenation with a
single separator and `path.basename` takes the part after the last
separator (directory entries returned by `fs.readdir` contain no
separator, so no normalization is needed). -/

def extStart (l : List Char) : Option Nat :=
  ((List.range l.length).filter (fun i => decide (0 < i) && decide (l.get? i = some '.'))).getLast?

def extname (l : List Char) : List Char :=
  match extStart l with
  | some i => l.drop i
  | none => []

def stemOf (l : List Char) : List Char :=
  match extStart l with
  | some i => l.take i
  | none => l

def pathJoin (dir file : String) : String :=
  ⟨dir.data ++ '/' :: file.data⟩

def basename (s : String) : String :=
  ⟨((s.data.reverse.takeWhile (fun c => decide (c ≠ '/'))).reverse)⟩

/-! ## Configuration (src/config.js) -/

def videoExtensions : List (List Char) := [".mp4".data, ".mkv".data, ".avi".data, ".mov".data]

def subtitleExtensions : List (List Char) := [".srt".data]

/-! ## FileMatcher (findMatchingFiles in src/bin.js)

Normalized key: lower-case the filename without extension, then remove
whitespace, hyphens, underscores, brackets and parentheses
(the regex [\s\-_\[\]()] with the g flag). -/

def strippedChar (c : Char) : Bool :=
  c.isWhitespace || c == '-' || c == '_' || c == '[' || c == ']' || c == '(' || c == ')'

def normalizeName (file : String) : List Char :=
  ((stemOf file.data).map Char.toLower).filter (fun c => !(strippedChar c))

def extLower (file : String) : List Char :=
  (extname file.data).map Char.toLower

def isVideo (file : String) : Bool :=
  decide (extLower file ∈ videoExtensions)

def isSubtitle (file : String) : Bool :=
  decide (extLower file ∈ subtitleExtensions)

structure MatchedPair where
  video : String
  subtitle : String
deriving DecidableEq

def classifyAux (dir : String) : List String →
    List (List Char × String) × List (List Char × String) →
    List (List Char × String) × List (List Char × String)
  | [], acc => acc
  | file :: rest, (vs, ss) =>
      if isVideo file then
        classifyAux dir rest (mapSet vs (normalizeName file) (pathJoin dir file), ss)
      else if isSubtitle file then
        classifyAux dir rest (vs, mapSet ss (normalizeName file) (pathJoin dir file))
      else
        classifyAux dir rest (vs, ss)

def classifyFiles (dir : String) (files : List String) :
    List (List Char × String) × List (List Char × String) :=
  classifyAux dir files ([], [])

def findMatchingFiles (dir : String) (files : List String) : List MatchedPair :=
  let p := classifyFiles dir files
  p.1.filterMap (fun e => (mapGet p.2 e.1).map (fun sp => MatchedPair.mk e.2 sp))

/-! ## FileMatcher lemmas -/

theorem video_not_subtitle (f : String) (hv : isVideo f = true) : isSubtitle f = false := by
  have hmem : extLower f ∈ videoExtensions := of_decide_eq_true hv
  simp only [videoExtensions, List.mem_cons, List.not_mem_nil, or_false] at hmem
  rcases hmem with h | h | h | h <;>
    · simp only [isSubtitle, h]
      decide

def lastMatchAux (dir : String) (pred : String → Bool) (k : List Char) :
    List String → Option String → Option String
  | [], acc => acc
  | f :: rest, acc =>
      if pred f then
        if normalizeName f = k then lastMatchAux dir pred k rest (some (pathJoin dir f))
        else lastMatchAux dir pred k rest acc
      else lastMatchAux dir pred k rest acc

theorem lastMatchAux_append (dir : String) (pred : String → Bool) (k : List Char)
    (l₁ l₂ : List String) (acc : Option String) :
    lastMatchAux dir pred k (l₁ ++ l₂) acc =
      lastMatchAux dir pred k l₂ (lastMatchAux dir pred k l₁ acc) := by
  induction l₁ generalizing acc with
  | nil => simp [lastMatchAux]
  | cons f rest ih =>
      by_cases hp : pred f
      · by_cases hk : normalizeName f = k
        · simp only [List.cons_append, lastMatchAux, if_pos hp, if_pos hk]
          exact ih _
        · simp only [List.cons_append, lastMatchAux, if_pos hp, if_neg hk]
          exact ih _
      · simp only [List.cons_append, lastMatchAux, if_neg hp]
        exact ih _

theorem lastMatchAux_of_none (dir : String) (pred : String → Bool) (k : List Char) :
    ∀ (files : List String) (acc : Option String),
    (∀ f ∈ files, ¬(pred f = true ∧ normalizeName f = k)) →
    lastMatchAux dir pred k files acc = acc := by
  intro files
  induction files with
  | nil => intro acc _; rfl
  | cons f rest ih =>
      intro acc h
      have hrest := fun g hg => h g (List.mem_cons_of_mem _ hg)
      by_cases hp : pred f
      · have hk : ¬ normalizeName f = k := fun hk => h f (List.mem_cons_self _ _) ⟨hp, hk⟩
        simp only [lastMatchAux, if_pos hp, if_neg hk]
        exact ih acc hrest
      · simp only [lastMatchAux, if_neg hp]
        exact ih acc hrest

theorem lastMatchAux_const (dir : String) (pred : String → Bool) (k : List Char)
    (V : String) :
    ∀ (files : List String),
    (∀ f ∈ files, pred f = true → normalizeName f = k → f = V) →
    lastMatchAux dir pred k files (some (pathJoin dir V)) = some (pathJoin dir V) := by
  intro files
  induction files with
  | nil => intro _; rfl
  | cons f rest ih =>
      intro h
      have hrest := fun g hg => h g (List.mem_cons_of_mem _ hg)
      by_cases hp : pred f
      · by_cases hk : normalizeName f = k
        · have hfv : f = V := h f (List.mem_cons_self _ _) hp hk
          simp only [lastMatchAux, if_pos hp, if_pos hk]
          rw [hfv]
          exact ih hrest
        · simp only [lastMatchAux, if_pos hp, if_neg hk]
          exact ih hrest
      · simp only [lastMatchAux, if_neg hp]
        exact ih hrest

theorem lastMatchAux_of_unique (dir : String) (pred : String → Bool) (k : List Char)
    (V : String) (hpV : pred V = true) (hkV : normalizeName V = k) :
    ∀ (files : List String) (acc : Option String),
    V ∈ files →
    (∀ f ∈ files, pred f = true → normalizeName f = k → f = V) →
    lastMatchAux dir pred k files acc = some (pathJoin dir V) := by
  intro files
  induction files with
  | nil => intro acc hV _; simp at hV
  | cons f rest ih =>
      intro acc hV huniq
      have hrest := fun g hg => huniq g (List.mem_cons_of_mem _ hg)
      by_cases hp : pred f
      · by_cases hk : normalizeName f = k
        · have hfv : f = V := huniq f (List.mem_cons_self _ _) hp hk
          simp only [lastMatchAux, if_pos hp, if_pos hk]
          rw [hfv]
          exact lastMatchAux_const dir pred k V rest hrest
        · have hfV : f ≠ V := fun hfv => hk (by rw [hfv]; exact hkV)
          have hVrest : V ∈ rest := by
            rcases List.mem_cons.mp hV with h | h
            · exact absurd h.symm hfV
            · exact h
          simp only [lastMatchAux, if_pos hp, if_neg hk]
          exact ih acc hVrest hrest
      · have hfV : f ≠ V := fun hfv => hp (by rw [hfv]; exact hpV)
        have hVrest : V ∈ rest := by
          rcases List.mem_cons.mp hV with h | h
          · exact absurd h.symm hfV
          · exact h
        simp only [lastMatchAux, if_neg hp]
        exact ih acc hVrest hrest

theorem classify_get_fst (dir : String) (k : List Char) :
    ∀ (files : List String) (vs ss : List (List Char × String)),
    mapGet (classifyAux dir files (vs, ss)).1 k = lastMatchAux dir isVideo k files (mapGet vs k) := by
  intro files
  induction files with
  | nil => intro vs ss; rfl
  | cons f rest ih =>
      intro vs ss
      by_cases hv : isVideo f
      · simp only [classifyAux, if_pos hv, lastMatchAux]
        rw [ih]
        rw [mapGet_mapSet]
        by_cases hk : normalizeName f = k
        · simp [hk]
        · rw [if_neg (fun hh => hk (Eq.symm hh)), if_neg hk]
      · by_cases hs : isSubtitle f
        · simp only [classifyAux, if_neg hv, if_pos hs, lastMatchAux]
          exact ih vs (mapSet ss (normalizeName f) (pathJoin dir f))
        · simp only [classifyAux, if_neg hv, if_neg hs, lastMatchAux]
          exact ih vs ss

theorem classify_get_snd (dir : String) (k : List Char) :
    ∀ (files : List String) (vs ss : List (List Char × String)),
    mapGet (classifyAux dir files (vs, ss)).2 k =
      lastMatchAux dir isSubtitle k files (mapGet ss k) := by
  intro files
  induction files with
  | nil => intro vs ss; rfl
  | cons f rest ih =>
      intro vs ss
      by_cases hv : isVideo f
      · have hs : ¬ isSubtitle f = true := by
          rw [video_not_subtitle f hv]; simp
        simp only [classifyAux, if_pos hv, lastMatchAux, if_neg hs]
        exact ih (mapSet vs (normalizeName f) (pathJoin dir f)) ss
      · by_cases hs : isSubtitle f
        · simp only [classifyAux, if_neg hv, if_pos hs, lastMatchAux]
          rw [ih]
          rw [mapGet_mapSet]
          by_cases hk : normalizeName f = k
          · simp [hk]
          · rw [if_neg (fun hh => hk (Eq.symm hh)), if_neg hk]
        · simp only [classifyAux, if_neg hv, if_neg hs, lastMatchAux]
          exact ih vs ss

theorem classify_mem_fst (dir : String) :
    ∀ (files : List String) (vs ss : List (List Char × String)) (e : List Char × String),
    e ∈ (classifyAux dir files (vs, ss)).1 →
    e ∈ vs ∨ ∃ f, f ∈ files ∧ isVideo f = true ∧ e.1 = normalizeName f ∧ e.2 = pathJoin dir f := by
  intro files
  induction files with
  | nil => intro vs ss e he; exact Or.inl he
  | cons f rest ih =>
      intro vs ss e he
      by_cases hv : isVideo f
      · simp only [classifyAux, if_pos hv] at he
        rcases ih _ _ e he with h | ⟨g, hg, hgv, hk, hp⟩
        · rcases mem_mapSet vs (normalizeName f) (pathJoin dir f) e h with h' | h'
          · exact Or.inl h'
          · exact Or.inr ⟨f, List.mem_cons_self _ _, hv, by rw [h'], by rw [h']⟩
        · exact Or.inr ⟨g, List.mem_cons_of_mem _ hg, hgv, hk, hp⟩
      · by_cases hs : isSubtitle f
        · simp only [classifyAux, if_neg hv, if_pos hs] at he
          rcases ih _ _ e he with h | ⟨g, hg, hgv, hk, hp⟩
          · exact Or.inl h
          · exact Or.inr ⟨g, List.mem_cons_of_mem _ hg, hgv, hk, hp⟩
        · simp only [classifyAux, if_neg hv, if_neg hs] at he
          rcases ih _ _ e he with h | ⟨g, hg, hgv, hk, hp⟩
          · exact Or.inl h
          · exact Or.inr ⟨g, List.mem_cons_of_mem _ hg, hgv, hk, hp⟩

theorem classify_mem_snd (dir : String) :
    ∀ (files : List String) (vs ss : List (List Char × String)) (e : List Char × String),
    e ∈ (classifyAux dir files (vs, ss)).2 →
    e ∈ ss ∨ ∃ f, f ∈ files ∧ isSubtitle f = true ∧ e.1 = normalizeName f ∧ e.2 = pathJoin dir f := by
  intro files
  induction files with
  | nil => intro vs ss e he; exact Or.inl he
  | cons f rest ih =>
      intro vs ss e he
      by_cases hv : isVideo f
      · simp only [classifyAux, if_pos hv] at he
        rcases ih _ _ e he with h | ⟨g, hg, hgv, hk, hp⟩
        · exact Or.inl h
        · exact Or.inr ⟨g, List.mem_cons_of_mem _ hg, hgv, hk, hp⟩
      · by_cases hs : isSubtitle f
        · simp only [classifyAux, if_neg hv, if_pos hs] at he
          rcases ih _ _ e he with h | ⟨g, hg, hgv, hk, hp⟩
          · rcases mem_mapSet ss (normalizeName f) (pathJoin dir f) e h with h' | h'
            · exact Or.inl h'
            · exact Or.inr ⟨f, List.mem_cons_self _ _, hs, by rw [h'], by rw [h']⟩
          · exact Or.inr ⟨g, List.mem_cons_of_mem _ hg, hgv, hk, hp⟩
        · simp only [classifyAux, if_neg hv, if_neg hs] at he
          rcases ih _ _ e he with h | ⟨g, hg, hgv, hk, hp⟩
          · exact Or.inl h
          · exact Or.inr ⟨g, List.mem_cons_of_mem _ hg, hgv, hk, hp⟩

theorem classify_nodup_fst (dir : String) :
    ∀ (files : List String) (vs ss : List (List Char × String)),
    ((vs.map Prod.fst).Nodup) → (((classifyAux dir files (vs, ss)).1.map Prod.fst).Nodup) := by
  intro files
  induction files with
  | nil => intro vs ss h; exact h
  | cons f rest ih =>
      intro vs ss h
      by_cases hv : isVideo f
      · simp only [classifyAux, if_pos hv]
        exact ih _ _ (nodup_keys_mapSet vs (normalizeName f) (pathJoin dir f) h)
      · by_cases hs : isSubtitle f
        · simp only [classifyAux, if_neg hv, if_pos hs]
          exact ih _ _ h
        · simp only [classifyAux, if_neg hv, if_neg hs]
          exact ih _ _ h

theorem countP_filterMap {α β : Type} (g : α → Option β) (q : β → Bool) (l : List α) :
    (l.filterMap g).countP q = l.countP (fun a => ((g a).map q).getD false) := by
  induction l with
  | nil => rfl
  | cons a rest ih =>
      rcases hga : g a with _ | b
      · simp [List.filterMap_cons, hga, List.countP_cons, ih]
      · simp [List.filterMap_cons, hga, List.countP_cons, ih]

theorem countP_eq_one_of_nodup_mem {α : Type} [DecidableEq α] :
    ∀ (l : List α) (a : α), l.Nodup → a ∈ l → l.countP (fun x => decide (x = a)) = 1 := by
  intro l
  induction l with
  | nil => intro a _ ha; simp at ha
  | cons x rest ih =>
      intro a hnd ha
      rcases List.mem_cons.mp ha with h | h
      · subst h
        have hz : rest.countP (fun y => decide (y = a)) = 0 := by
          rw [List.countP_eq_zero]
          intro b hb
          simp only [decide_eq_true_eq]
          intro hbx
          exact (List.nodup_cons.mp hnd).1 (hbx ▸ hb)
        simp [List.countP_cons, hz]
      · have hxa : ¬ x = a := fun hxa => (List.nodup_cons.mp hnd).1 (hxa ▸ h)
        simp [List.countP_cons, hxa, ih a (List.nodup_cons.mp hnd).2 h]

theorem pathJoin_inj (dir f₁ f₂ : String) (h : pathJoin dir f₁ = pathJoin dir f₂) : f₁ = f₂ := by
  have hd : dir.data ++ '/' :: f₁.data = dir.data ++ '/' :: f₂.data := congrArg String.data h
  have hf : f₁.data = f₂.data := by
    have := List.append_cancel_left hd
    injection this
  exact congrArg String.mk hf

theorem takeWhile_append_cons {α : Type} (p : α → Bool) (xs : List α) (y : α) (ys : List α)
    (hxs : ∀ x ∈ xs, p x = true) (hy : p y = false) :
    (xs ++ y :: ys).takeWhile p = xs := by
  induction xs with
  | nil => simp [List.takeWhile, hy]
  | cons x rest ih =>
      have hx : p x = true := hxs x (List.mem_cons_self _ _)
      simp only [List.cons_append, List.takeWhile, hx]
      exact congrArg (List.cons x) (ih (fun z hz => hxs z (List.mem_cons_of_mem _ hz)))

theorem basename_pathJoin (dir file : String) (hf : '/' ∉ file.data) :
    basename (pathJoin dir file) = file := by
  unfold basename pathJoin
  have hrev : (dir.data ++ '/' :: file.data).reverse =
      file.data.reverse ++ '/' :: dir.data.reverse := by
    simp [List.reverse_append]
  have htw : ((dir.data ++ '/' :: file.data).reverse.takeWhile (fun c => decide (c ≠ '/'))) =
      file.data.reverse := by
    rw [hrev]
    exact takeWhile_append_cons _ _ _ _
      (fun x hx => by
        simp only [decide_eq_true_eq]
        intro hc
        exact hf (by rw [← hc]; exact (List.mem_reverse).mp hx))
      (by simp)
  simp only [htw, List.reverse_reverse]

/-- Every produced pair comes from a video file and a subtitle file of the
listing whose normalized keys agree. -/
theorem matches_mem (dir : String) (files : List String) (p : MatchedPair)
    (hp : p ∈ findMatchingFiles dir files) :
    ∃ fv fs, fv ∈ files ∧ isVideo fv = true ∧ fs ∈ files ∧ isSubtitle fs = true ∧
      normalizeName fs = normalizeName fv ∧
      p.video = pathJoin dir fv ∧ p.subtitle = pathJoin dir fs := by
  unfold findMatchingFiles at hp
  rcases List.mem_filterMap.mp hp with ⟨e, he, hge⟩
  rcases hsp : mapGet (classifyFiles dir files).2 e.1 with _ | sp
  · rw [hsp] at hge; simp at hge
  · rw [hsp] at hge
    simp only [Option.map_some', Option.some.injEq] at hge
    rcases classify_mem_fst dir files [] [] e he with h0 | ⟨fv, hfv, hfvv, hk1, hp2⟩
    · simp at h0
    · rcases classify_mem_snd dir files [] [] (e.1, sp) (mapGet_mem _ _ _ hsp) with h0 | hfs
      · simp at h0
      · rcases hfs with ⟨fs, hfs, hfss, hk2, hsp2⟩
        refine ⟨fv, fs, hfv, hfvv, hfs, hfss, ?_, ?_, ?_⟩
        · rw [← hk2]; exact hk1
        · rw [← hge]; exact hp2
        · rw [← hge]; exact hsp2

/-- Core counting lemma: when the class mappings resolve a key to the paths
of V and S, the matcher emits the pair (V, S) exactly once. -/
theorem matches_count_core (dir : String) (files : List String) (k : List Char) (V S : String)
    (hgetV : mapGet (classifyFiles dir files).1 k = some (pathJoin dir V))
    (hgetS : mapGet (classifyFiles dir files).2 k = some (pathJoin dir S)) :
    (findMatchingFiles dir files).countP
      (fun p => decide (p = MatchedPair.mk (pathJoin dir V) (pathJoin dir S))) = 1 := by
  have hnd : (((classifyFiles dir files).1.map Prod.fst)).Nodup := by
    rw [classifyFiles]
    exact classify_nodup_fst dir files [] [] (by simp)
  have hvsnodup : (classifyFiles dir files).1.Nodup := List.Nodup.of_map _ hnd
  have hmemkv : (k, pathJoin dir V) ∈ (classifyFiles dir files).1 :=
    mapGet_mem _ _ _ hgetV
  have hkV : k = normalizeName V := by
    rcases classify_mem_fst dir files [] [] (k, pathJoin dir V) hmemkv
      with h0 | ⟨f, _, _, hk1, hp2⟩
    · simp at h0
    · have hfV : f = V := pathJoin_inj dir f V hp2.symm
      rw [show (k, pathJoin dir V).1 = k from rfl] at hk1
      rw [hk1, hfV]
  unfold findMatchingFiles
  rw [countP_filterMap]
  have hcong : ∀ e ∈ (classifyFiles dir files).1,
      ((((mapGet (classifyFiles dir files).2 e.1).map (fun sp => MatchedPair.mk e.2 sp)).map
          (fun b => decide (b = MatchedPair.mk (pathJoin dir V) (pathJoin dir S)))).getD false
        = true) ↔
      (decide (e = (k, pathJoin dir V)) = true) := by
    intro e he
    constructor
    · intro htrue
      rcases hsp : mapGet (classifyFiles dir files).2 e.1 with _ | sp
      · rw [hsp] at htrue; simp at htrue
      · rw [hsp] at htrue
        simp only [Option.map_some', Option.getD_some, decide_eq_true_eq,
          MatchedPair.mk.injEq] at htrue
        rcases classify_mem_fst dir files [] [] e he with h0 | ⟨f, hf, hfv, hk1, hp2⟩
        · simp at h0
        · have hfV : f = V := pathJoin_inj dir f V (by rw [← hp2, htrue.1])
          have he1 : e.1 = k := by rw [hk1, hfV, ← hkV]
          have he2 : e.2 = pathJoin dir V := by rw [hp2, hfV]
          simp [Prod.ext_iff, he1, he2]
    · intro heq
      simp only [decide_eq_true_eq] at heq
      rw [heq]
      simp [hgetS]
  exact (List.countP_congr hcong).trans (countP_eq_one_of_nodup_mem _ _ hvsnodup hmemkv)

/-- With a unique video V and unique subtitle S for the key of V, the
matcher produces the pair (V, S) exactly once. -/
theorem matches_count_of_unique (dir : String) (files : List String) (V S : String)
    (hV : V ∈ files) (hvV : isVideo V = true)
    (hS : S ∈ files) (hsS : isSubtitle S = true)
    (hkey : normalizeName S = normalizeName V)
    (huniqV : ∀ f ∈ files, isVideo f = true → normalizeName f = normalizeName V → f = V)
    (huniqS : ∀ f ∈ files, isSubtitle f = true → normalizeName f = normalizeName V → f = S) :
    (findMatchingFiles dir files).countP
      (fun p => decide (p = MatchedPair.mk (pathJoin dir V) (pathJoin dir S))) = 1 := by
  have hgetV : mapGet (classifyFiles dir files).1 (normalizeName V) = some (pathJoin dir V) := by
    rw [classifyFiles, classify_get_fst]
    exact lastMatchAux_of_unique dir isVideo (normalizeName V) V hvV rfl files _ hV huniqV
  have hgetS : mapGet (classifyFiles dir files).2 (normalizeName V) = some (pathJoin dir S) := by
    rw [classifyFiles, classify_get_snd]
    exact lastMatchAux_of_unique dir isSubtitle (normalizeName V) S hsS hkey files _ hS huniqS
  exact matches_count_core dir files (normalizeName V) V S hgetV hgetS

/-- Last-wins collision: with two colliding videos V1 (earlier) and V2
(later) and one subtitle S for their key, exactly one pair is produced and
its video is V2; no pair carries V1. -/
theorem matches_collision (dir : String) (A B C : List String) (V1 V2 S : String)
    (hv1 : isVideo V1 = true) (hv2 : isVideo V2 = true)
    (hne12 : V1 ≠ V2) (hk12 : normalizeName V1 = normalizeName V2)
    (hsS : isSubtitle S = true) (hS : S ∈ A ++ V1 :: B ++ V2 :: C)
    (hkS : normalizeName S = normalizeName V2)
    (huniqS : ∀ f ∈ A ++ V1 :: B ++ V2 :: C,
      isSubtitle f = true → normalizeName f = normalizeName V2 → f = S)
    (hnoC : ∀ f ∈ C, isVideo f = true → normalizeName f ≠ normalizeName V2) :
    ((findMatchingFiles dir (A ++ V1 :: B ++ V2 :: C)).countP
      (fun p => decide (p = MatchedPair.mk (pathJoin dir V2) (pathJoin dir S))) = 1) ∧
    ((findMatchingFiles dir (A ++ V1 :: B ++ V2 :: C)).countP
      (fun p => p.video == pathJoin dir V1) = 0) := by
  have hsplit : A ++ V1 :: B ++ V2 :: C = (A ++ V1 :: B) ++ (V2 :: C) := by simp
  have hgetV : mapGet (classifyFiles dir (A ++ V1 :: B ++ V2 :: C)).1 (normalizeName V2)
      = some (pathJoin dir V2) := by
    rw [classifyFiles, classify_get_fst, hsplit, lastMatchAux_append]
    simp only [lastMatchAux, if_pos hv2, if_pos rfl]
    exact lastMatchAux_of_none dir isVideo (normalizeName V2) C _
      (fun f hf hc => hnoC f hf hc.1 hc.2)
  have hgetS : mapGet (classifyFiles dir (A ++ V1 :: B ++ V2 :: C)).2 (normalizeName V2)
      = some (pathJoin dir S) := by
    rw [classifyFiles, classify_get_snd]
    exact lastMatchAux_of_unique dir isSubtitle (normalizeName V2) S hsS hkS _ _ hS huniqS
  refine ⟨matches_count_core dir _ (normalizeName V2) V2 S hgetV hgetS, ?_⟩
  have hnd : (((classifyFiles dir (A ++ V1 :: B ++ V2 :: C)).1.map Prod.fst)).Nodup := by
    rw [classifyFiles]
    exact classify_nodup_fst dir _ [] [] (by simp)
  rw [List.countP_eq_zero]
  intro p hp
  simp only [beq_iff_eq]
  intro hpv
  unfold findMatchingFiles at hp
  rcases List.mem_filterMap.mp hp with ⟨e, he, hge⟩
  rcases hsp : mapGet (classifyFiles dir (A ++ V1 :: B ++ V2 :: C)).2 e.1 with _ | sp
  · rw [hsp] at hge; simp at hge
  · rw [hsp] at hge
    simp only [Option.map_some', Option.some.injEq] at hge
    have hev : e.2 = pathJoin dir V1 := by rw [← hpv, ← hge]
    rcases classify_mem_fst dir _ [] [] e he with h0 | ⟨f, hf, hfv, hk1, hp2⟩
    · simp at h0
    · have hfV1 : f = V1 := pathJoin_inj dir f V1 (by rw [← hp2, hev])
      have he1 : e.1 = normalizeName V2 := by rw [hk1, hfV1, hk12]
      have hm1 : (normalizeName V2, pathJoin dir V1) ∈
          (classifyFiles dir (A ++ V1 :: B ++ V2 :: C)).1 := by
        rw [← he1, ← hev]
        exact he
      have hm2 : (normalizeName V2, pathJoin dir V2) ∈
          (classifyFiles dir (A ++ V1 :: B ++ V2 :: C)).1 :=
        mapGet_mem _ _ _ hgetV
      have : pathJoin dir V1 = pathJoin dir V2 :=
        mem_val_eq_of_nodup_keys _ hnd _ _ _ hm1 hm2
      exact hne12 (pathJoin_inj dir V1 V2 this)

/-- Distinct pairs produced from one listing carry distinct video
basenames: keys are unique per class, and the video path determines the
file, which determines the key. -/
theorem matches_pairwise_basename (dir : String) (files : List String)
    (hslash : ∀ f ∈ files, '/' ∉ f.data) :
    (findMatchingFiles dir files).Pairwise
      (fun p q => basename p.video ≠ basename q.video) := by
  unfold findMatchingFiles
  rw [List.pairwise_filterMap]
  have hnd : (((classifyFiles dir files).1.map Prod.fst)).Nodup := by
    rw [classifyFiles]
    exact classify_nodup_fst dir files [] [] (by simp)
  have hpw : (classifyFiles dir files).1.Pairwise (fun a b => a.1 ≠ b.1) :=
    List.pairwise_map.mp hnd
  have hpw2 := List.Pairwise.and_mem.mp hpw
  refine hpw2.imp ?_
  intro a b hab
  obtain ⟨ha, hb, hne⟩ := hab
  intro x hx y hy
  rcases hsa : mapGet (classifyFiles dir files).2 a.1 with _ | spa
  · rw [hsa] at hx; simp at hx
  · rw [hsa] at hx
    simp only [Option.map_some', Option.mem_def, Option.some.injEq] at hx
    rcases hsb : mapGet (classifyFiles dir files).2 b.1 with _ | spb
    · rw [hsb] at hy; simp at hy
    · rw [hsb] at hy
      simp only [Option.map_some', Option.mem_def, Option.some.injEq] at hy
      rcases classify_mem_fst dir files [] [] a ha with h0 | ⟨fa, hfa, _, hka, hpa⟩
      · simp at h0
      · rcases classify_mem_fst dir files [] [] b hb with h0 | ⟨fb, hfb, _, hkb, hpb⟩
        · simp at h0
        · have hxv : x.video = pathJoin dir fa := by rw [← hx]; exact hpa
          have hyv : y.video = pathJoin dir fb := by rw [← hy]; exact hpb
          have hfab : fa ≠ fb := by
            intro hEq
            exact hne (by rw [hka, hkb, hEq])
          intro hbase
          apply hfab
          rw [hxv, hyv, basename_pathJoin dir fa (hslash fa hfa),
            basename_pathJoin dir fb (hslash fb hfb)] at hbase
          exact hbase

/-- A video whose key has no subtitle produces no pair; a subtitle whose
key has no video produces no pair. -/
theorem matches_none_of_missing (dir : String) (files : List String) :
    (∀ V, V ∈ files → isVideo V = true →
      (∀ f ∈ files, isSubtitle f = true → normalizeName f ≠ normalizeName V) →
      (findMatchingFiles dir files).countP (fun p => p.video == pathJoin dir V) = 0) ∧
    (∀ S, S ∈ files → isSubtitle S = true →
      (∀ f ∈ files, isVideo f = true → normalizeName f ≠ normalizeName S) →
      (findMatchingFiles dir files).countP (fun p => p.subtitle == pathJoin dir S) = 0) := by
  constructor
  · intro V hV hvV hnosub
    rw [List.countP_eq_zero]
    intro p hp
    simp only [beq_iff_eq]
    intro hpv
    rcases matches_mem dir files p hp with ⟨fv, fs, hfv, hfvv, hfs, hfss, hkk, hpvid, _⟩
    have hfvV : fv = V := pathJoin_inj dir fv V (by rw [← hpvid, hpv])
    exact hnosub fs hfs hfss (by rw [hkk, hfvV])
  · intro S hS hsS hnovid
    rw [List.countP_eq_zero]
    intro p hp
    simp only [beq_iff_eq]
    intro hps
    rcases matches_mem dir files p hp with ⟨fv, fs, hfv, hfvv, hfs, hfss, hkk, _, hpsub⟩
    have hfsS : fs = S := pathJoin_inj dir fs S (by rw [← hpsub, hps])
    exact hnovid fv hfv hfvv (by rw [← hkk, hfsS])

/-! ## ProgressTracker (the STATUS object in src/bin.js)

The per-conversion mutations of STATUS, as performed by processVideo:
registering an item at 0% when the conversion starts (line 50), updating
its percentage while parsing progress (line 107), and finishing it on the
process close or error event (lines 114-116 and 130-132): delete from
inProgress, increment completed, record the success flag in results.
Every operation also triggers a synchronous render (printProgress). -/

inductive TOp where
  | register (label : String)
  | update (label : String) (pct : ℚ)
  | finish (label : String) (success : Bool)
deriving DecidableEq

def opLabel : TOp → String
  | .register l => l
  | .update l _ => l
  | .finish l _ => l

def isFinish : TOp → Bool
  | .finish _ _ => true
  | _ => false

def finishes (ops : List TOp) : List (String × Bool) :=
  ops.filterMap (fun op => match op with | .finish l b => some (l, b) | _ => none)

structure TrackerState where
  completed : Nat
  inProgress : List (String × ℚ)
  results : List (String × Bool)
deriving DecidableEq

def initTracker : TrackerState := ⟨0, [], []⟩

def applyOp (s : TrackerState) : TOp → TrackerState
  | .register l => { s with inProgress := mapSet s.inProgress l 0 }
  | .update l p => { s with inProgress := mapSet s.inProgress l p }
  | .finish l b =>
      { completed := s.completed + 1,
        inProgress := mapDelete s.inProgress l,
        results := mapSet s.results l b }

def runOps (ops : List TOp) : TrackerState := ops.foldl applyOp initTracker

/-- Well-formedness of an operation trace: once an item is finished no
later operation mentions its label.  The two close-with-exit-code outcomes
of processVideo produce such traces (the close handler is the last event
of those conversions).  The process-launch-error outcome does NOT: Node
emits the close event after the error event when the child fails to
spawn, so both handlers run and the item's finish operation occurs twice
— the launch-error analysis for C2 below evaluates that trace outside
this predicate. -/
def NoOpAfterFinish (ops : List TOp) : Prop :=
  ∀ i (hi : i < ops.length), ∀ j (hj : j < ops.length), i < j →
    isFinish (ops.get ⟨i, hi⟩) = true →
    opLabel (ops.get ⟨j, hj⟩) ≠ opLabel (ops.get ⟨i, hi⟩)

instance (ops : List TOp) : Decidable (NoOpAfterFinish ops) := by
  unfold NoOpAfterFinish
  infer_instance

theorem mem_finishes_iff (ops : List TOp) (l : String) (b : Bool) :
    (l, b) ∈ finishes ops ↔ TOp.finish l b ∈ ops := by
  unfold finishes
  rw [List.mem_filterMap]
  constructor
  · rintro ⟨o, ho, hgo⟩
    cases o with
    | register l' => simp at hgo
    | update l' p => simp at hgo
    | finish l' b' =>
        simp only [Option.some.injEq, Prod.mk.injEq] at hgo
        rw [← hgo.1, ← hgo.2]
        exact ho
  · intro ho
    exact ⟨TOp.finish l b, ho, rfl⟩

theorem noOpAfterFinish_front (ops : List TOp) (op : TOp)
    (h : NoOpAfterFinish (ops ++ [op])) : NoOpAfterFinish ops := by
  intro i hi j hj hij hfin
  have hi' : i < (ops ++ [op]).length := by simp; omega
  have hj' : j < (ops ++ [op]).length := by simp; omega
  have hgi : (ops ++ [op]).get ⟨i, hi'⟩ = ops.get ⟨i, hi⟩ := List.get_append i hi
  have hgj : (ops ++ [op]).get ⟨j, hj'⟩ = ops.get ⟨j, hj⟩ := List.get_append j hj
  have := h i hi' j hj' hij (by rw [hgi]; exact hfin)
  rw [hgi, hgj] at this
  exact this

theorem noOpAfterFinish_last (ops : List TOp) (op : TOp)
    (h : NoOpAfterFinish (ops ++ [op])) :
    ∀ l b, (l, b) ∈ finishes ops → opLabel op ≠ l := by
  intro l b hmem
  have hop : TOp.finish l b ∈ ops := (mem_finishes_iff ops l b).mp hmem
  rcases List.mem_iff_get.mp hop with ⟨n, hn⟩
  have hi' : n.val < (ops ++ [op]).length := by simp; omega
  have hj' : ops.length < (ops ++ [op]).length := by simp
  have hgi : (ops ++ [op]).get ⟨n.val, hi'⟩ = ops.get n := by
    rw [List.get_append n.val n.isLt]
  have hgj : (ops ++ [op]).get ⟨ops.length, hj'⟩ = op := by
    rw [List.get_append_right ops [op] (le_refl _)]
    · simp
    · simp
  have := h n.val hi' ops.length hj' n.isLt (by rw [hgi, hn]; rfl)
  rw [hgi, hgj, hn] at this
  exact this

/-- Invariant of the STATUS state machine over well-formed traces:
completed counts the finish operations, results holds each finished label
exactly once with the flag passed at finish time, and finished labels are
no longer in the in-flight map. -/
theorem tracker_invariant : ∀ ops : List TOp, NoOpAfterFinish ops →
    (runOps ops).completed = (finishes ops).length ∧
    (∀ l, ((runOps ops).results.map Prod.fst).count l =
      ((finishes ops).map Prod.fst).count l) ∧
    (∀ l b, (l, b) ∈ finishes ops →
      mapGet (runOps ops).results l = some b ∧
      mapGet (runOps ops).inProgress l = none) := by
  intro ops
  induction ops using List.reverseRecOn with
  | nil =>
      intro _
      exact ⟨rfl, fun l => rfl, fun l b h => by simp [finishes] at h⟩
  | append_singleton ops op ih =>
      intro hwf
      obtain ⟨ih1, ih2, ih3⟩ := ih (noOpAfterFinish_front ops op hwf)
      have hlast := noOpAfterFinish_last ops op hwf
      have hrun : runOps (ops ++ [op]) = applyOp (runOps ops) op := by
        unfold runOps
        rw [List.foldl_append]
        rfl
      cases op with
      | register l' =>
          have hfin : finishes (ops ++ [TOp.register l']) = finishes ops := by
            simp [finishes, List.filterMap_append]
          refine ⟨?_, ?_, ?_⟩
          · rw [hrun, hfin]; exact ih1
          · intro l; rw [hrun, hfin]; exact ih2 l
          · intro l b hmem
            rw [hfin] at hmem
            have hne : l' ≠ l := hlast l b hmem
            obtain ⟨hres, hip⟩ := ih3 l b hmem
            refine ⟨by rw [hrun]; exact hres, ?_⟩
            rw [hrun]
            show mapGet (mapSet (runOps ops).inProgress l' 0) l = none
            rw [mapGet_mapSet]
            rw [if_neg (fun hh => hne hh.symm)]
            exact hip
      | update l' p =>
          have hfin : finishes (ops ++ [TOp.update l' p]) = finishes ops := by
            simp [finishes, List.filterMap_append]
          refine ⟨?_, ?_, ?_⟩
          · rw [hrun, hfin]; exact ih1
          · intro l; rw [hrun, hfin]; exact ih2 l
          · intro l b hmem
            rw [hfin] at hmem
            have hne : l' ≠ l := hlast l b hmem
            obtain ⟨hres, hip⟩ := ih3 l b hmem
            refine ⟨by rw [hrun]; exact hres, ?_⟩
            rw [hrun]
            show mapGet (mapSet (runOps ops).inProgress l' p) l = none
            rw [mapGet_mapSet]
            rw [if_neg (fun hh => hne hh.symm)]
            exact hip
      | finish l' b' =>
          have hfin : finishes (ops ++ [TOp.finish l' b']) = finishes ops ++ [(l', b')] := by
            simp [finishes, List.filterMap_append]
          have hfresh : ∀ b0, (l', b0) ∉ finishes ops := by
            intro b0 hmem
            exact hlast l' b0 hmem rfl
          have hkey0 : ((finishes ops).map Prod.fst).count l' = 0 := by
            rw [List.count_eq_zero]
            intro hmem
            rcases List.mem_map.mp hmem with ⟨pr, hpr, hfst⟩
            apply hfresh pr.2
            rw [← hfst]
            exact hpr
          have hnotkey : l' ∉ (runOps ops).results.map Prod.fst := by
            rw [← List.count_eq_zero, ih2 l', hkey0]
          refine ⟨?_, ?_, ?_⟩
          · rw [hrun, hfin]
            show (runOps ops).completed + 1 = (finishes ops ++ [(l', b')]).length
            rw [ih1]
            simp
          · intro l
            rw [hrun, hfin]
            show ((mapSet (runOps ops).results l' b').map Prod.fst).count l =
              (((finishes ops) ++ [(l', b')]).map Prod.fst).count l
            rw [keys_mapSet, if_neg hnotkey]
            rw [List.map_append, List.count_append, List.count_append, ih2 l]
            simp
          · intro l b hmem
            rw [hfin] at hmem
            rcases List.mem_append.mp hmem with hmem | hmem
            · have hne : l' ≠ l := hlast l b hmem
              obtain ⟨hres, hip⟩ := ih3 l b hmem
              constructor
              · rw [hrun]
                show mapGet (mapSet (runOps ops).results l' b') l = some b
                rw [mapGet_mapSet, if_neg (fun hh => hne hh.symm)]
                exact hres
              · rw [hrun]
                show mapGet (mapDelete (runOps ops).inProgress l') l = none
                rw [mapGet_mapDelete, if_neg (fun hh => hne hh.symm)]
                exact hip
            · simp only [List.mem_singleton, Prod.mk.injEq] at hmem
              rw [hmem.1, hmem.2]
              constructor
              · rw [hrun]
                show mapGet (mapSet (runOps ops).results l' b') l' = some b'
                rw [mapGet_mapSet, if_pos rfl]
              · rw [hrun]
                show mapGet (mapDelete (runOps ops).inProgress l') l' = none
                rw [mapGet_mapDelete, if_pos rfl]

/-! ## Progress parsing (the stderr data handler in processVideo)

Each stderr chunk is scanned with two regexes; a chunk is modelled by the
first match of each pattern, as a triple (hours, minutes, seconds) where
seconds carries the two decimals.  The handler keeps two per-conversion
variables: duration (initially 0; a Duration match is read only while
duration is still falsy, i.e. 0) and lastProgress (initially 0).  When a
time match is present and duration > 0, the percentage
((currentTime / duration) * 100).toFixed(1) is computed, and if it differs
from lastProgress by at least 0.1 the update is applied: lastProgress and
the inProgress entry are set and a render happens.  JS numbers are
modelled as exact rationals and toFixed(1) as exact rounding to one
decimal. -/

structure Chunk where
  dur : Option (Nat × Nat × ℚ)
  time : Option (Nat × Nat × ℚ)
deriving DecidableEq

def toSeconds : Nat × Nat × ℚ → ℚ
  | (h, m, s) => h * 3600 + m * 60 + s

structure PState where
  duration : ℚ
  lastProgress : ℚ
deriving DecidableEq

def round1 (q : ℚ) : ℚ := (⌊q * 10 + 1/2⌋ : ℤ) / 10

/-- First block of the data handler: capture the duration, only while the
duration variable is still falsy (0). -/
def captureDurAux (st : PState) : Option (Nat × Nat × ℚ) → PState
  | some d => { st with duration := toSeconds d }
  | none => st

def captureDur (st : PState) (c : Chunk) : PState :=
  if st.duration = 0 then captureDurAux st c.dur else st

/-- Second block of the data handler: on a time match with a positive
duration, compute the rounded percentage and apply it when it moved by at
least 0.1 from lastProgress (update lastProgress, set the inProgress
entry, render). -/
def emitTimeAux (st : PState) : Option (Nat × Nat × ℚ) → PState × List ℚ
  | some t =>
      if st.duration > 0 then
        if 1/10 ≤ |round1 (toSeconds t / st.duration * 100) - st.lastProgress| then
          ({ st with lastProgress := round1 (toSeconds t / st.duration * 100) },
            [round1 (toSeconds t / st.duration * 100)])
        else (st, [])
      else (st, [])
  | none => (st, [])

def emitTime (st : PState) (c : Chunk) : PState × List ℚ :=
  emitTimeAux st c.time

def stepChunk (st : PState) (c : Chunk) : PState × List ℚ :=
  emitTime (captureDur st c) c

def runChunksFrom (st : PState) : List Chunk → PState × List ℚ
  | [] => (st, [])
  | c :: rest =>
      let out := stepChunk st c
      let outs := runChunksFrom out.1 rest
      (outs.1, out.2 ++ outs.2)

def runChunks (cs : List Chunk) : PState × List ℚ := runChunksFrom ⟨0, 0⟩ cs

def durValue (c : Chunk) : ℚ :=
  match c.dur with
  | some d => toSeconds d
  | none => 0

/-- The duration the stream would establish: the first Duration match
whose parsed value is nonzero (a zero-valued match leaves the variable
falsy, so scanning continues). -/
def firstNonzeroDur (cs : List Chunk) : ℚ :=
  match cs with
  | [] => 0
  | c :: rest => if durValue c ≠ 0 then durValue c else firstNonzeroDur rest

theorem captureDur_ne (st : PState) (c : Chunk) (h : st.duration ≠ 0) :
    captureDur st c = st := by
  unfold captureDur
  rw [if_neg h]

theorem captureDur_zero (lp : ℚ) (c : Chunk) :
    captureDur ⟨0, lp⟩ c = ⟨durValue c, lp⟩ := by
  unfold captureDur
  rw [if_pos rfl]
  rcases hd : c.dur with _ | d
  · simp [captureDurAux, durValue, hd]
  · simp [captureDurAux, durValue, hd]

theorem emitTimeAux_duration (st : PState) (o : Option (Nat × Nat × ℚ)) :
    (emitTimeAux st o).1.duration = st.duration := by
  rcases o with _ | t
  · rfl
  · simp only [emitTimeAux]
    by_cases hd : st.duration > 0
    · rw [if_pos hd]
      by_cases hth : (1:ℚ)/10 ≤ |round1 (toSeconds t / st.duration * 100) - st.lastProgress|
      · rw [if_pos hth]
      · rw [if_neg hth]
    · rw [if_neg hd]

theorem emitTime_duration (st : PState) (c : Chunk) :
    (emitTime st c).1.duration = st.duration :=
  emitTimeAux_duration st c.time

theorem emitTime_nonpos (st : PState) (c : Chunk) (h : ¬ st.duration > 0) :
    emitTime st c = (st, []) := by
  unfold emitTime
  rcases o : c.time with _ | t
  · rfl
  · simp only [emitTimeAux]
    rw [if_neg h]

theorem stepChunk_duration_ne (st : PState) (c : Chunk) (h : st.duration ≠ 0) :
    (stepChunk st c).1.duration = st.duration := by
  unfold stepChunk
  rw [captureDur_ne st c h, emitTime_duration]

theorem runChunksFrom_duration_ne (cs : List Chunk) :
    ∀ st : PState, st.duration ≠ 0 → (runChunksFrom st cs).1.duration = st.duration := by
  induction cs with
  | nil => intro st _; rfl
  | cons c rest ih =>
      intro st h
      show (runChunksFrom (stepChunk st c).1 rest).1.duration = st.duration
      rw [ih _ (by rw [stepChunk_duration_ne st c h]; exact h)]
      exact stepChunk_duration_ne st c h

theorem stepChunk_zero (lp : ℚ) (c : Chunk) (hz : durValue c = 0) :
    stepChunk ⟨0, lp⟩ c = (⟨0, lp⟩, []) := by
  unfold stepChunk
  rw [captureDur_zero, hz]
  exact emitTime_nonpos _ c (by norm_num)

theorem runChunksFrom_duration (cs : List Chunk) :
    ∀ lp : ℚ, (runChunksFrom ⟨0, lp⟩ cs).1.duration = firstNonzeroDur cs := by
  induction cs with
  | nil => intro lp; rfl
  | cons c rest ih =>
      intro lp
      show (runChunksFrom (stepChunk ⟨0, lp⟩ c).1 rest).1.duration = firstNonzeroDur (c :: rest)
      by_cases hz : durValue c = 0
      · rw [stepChunk_zero lp c hz]
        rw [ih lp]
        show firstNonzeroDur rest = if durValue c ≠ 0 then durValue c else firstNonzeroDur rest
        rw [if_neg (by simpa using hz)]
      · have hd1 : (stepChunk ⟨0, lp⟩ c).1.duration = durValue c := by
          unfold stepChunk
          rw [captureDur_zero, emitTime_duration]
        rw [runChunksFrom_duration_ne rest _ (by rw [hd1]; exact hz), hd1]
        show durValue c = if durValue c ≠ 0 then durValue c else firstNonzeroDur rest
        rw [if_pos hz]

theorem runChunksFrom_zero_out (cs : List Chunk) (h : ∀ c ∈ cs, durValue c = 0) :
    ∀ lp : ℚ, runChunksFrom ⟨0, lp⟩ cs = (⟨0, lp⟩, []) := by
  induction cs with
  | nil => intro lp; rfl
  | cons c rest ih =>
      intro lp
      show ((runChunksFrom (stepChunk ⟨0, lp⟩ c).1 rest).1,
        (stepChunk ⟨0, lp⟩ c).2 ++ (runChunksFrom (stepChunk ⟨0, lp⟩ c).1 rest).2) = (⟨0, lp⟩, [])
      rw [stepChunk_zero lp c (h c (List.mem_cons_self _ _))]
      rw [ih (fun g hg => h g (List.mem_cons_of_mem _ hg)) lp]
      rfl

/-- Every emitted update with a fixed nonzero duration is the rounded
percentage of some time match of the stream, computed against that
duration. -/
theorem runChunksFrom_out_ne (cs : List Chunk) :
    ∀ st : PState, st.duration ≠ 0 →
    ∀ e ∈ (runChunksFrom st cs).2, ∃ c ∈ cs, ∃ t, c.time = some t ∧
      e = round1 (toSeconds t / st.duration * 100) := by
  induction cs with
  | nil => intro st _ e he; simp [runChunksFrom] at he
  | cons c rest ih =>
      intro st hne e he
      have hstep : (stepChunk st c).1.duration = st.duration := stepChunk_duration_ne st c hne
      have he' : e ∈ (stepChunk st c).2 ++ (runChunksFrom (stepChunk st c).1 rest).2 := he
      rcases List.mem_append.mp he' with hemem | hemem
      · unfold stepChunk at hemem
        rw [captureDur_ne st c hne] at hemem
        unfold emitTime at hemem
        rcases hct : c.time with _ | t
        · rw [hct] at hemem; simp [emitTimeAux] at hemem
        · rw [hct] at hemem
          simp only [emitTimeAux] at hemem
          by_cases hd : st.duration > 0
          · rw [if_pos hd] at hemem
            by_cases hth : (1:ℚ)/10 ≤ |round1 (toSeconds t / st.duration * 100) - st.lastProgress|
            · rw [if_pos hth] at hemem
              simp only [List.mem_singleton] at hemem
              exact ⟨c, List.mem_cons_self _ _, t, hct, hemem⟩
            · rw [if_neg hth] at hemem
              simp at hemem
          · rw [if_neg hd] at hemem
            simp at hemem
      · rcases ih (stepChunk st c).1 (by rw [hstep]; exact hne) e hemem with ⟨c', hc', t, hct, hval⟩
        rw [hstep] at hval
        exact ⟨c', List.mem_cons_of_mem _ hc', t, hct, hval⟩

theorem emitTimeAux_out (st : PState) (o : Option (Nat × Nat × ℚ)) :
    ∀ e ∈ (emitTimeAux st o).2, ∃ t, o = some t ∧
      e = round1 (toSeconds t / st.duration * 100) := by
  rcases o with _ | t
  · intro e he; simp [emitTimeAux] at he
  · intro e he
    simp only [emitTimeAux] at he
    by_cases hd : st.duration > 0
    · rw [if_pos hd] at he
      by_cases hth : (1:ℚ)/10 ≤ |round1 (toSeconds t / st.duration * 100) - st.lastProgress|
      · rw [if_pos hth] at he
        simp only [List.mem_singleton] at he
        exact ⟨t, rfl, he⟩
      · rw [if_neg hth] at he
        simp at he
    · rw [if_neg hd] at he
      simp at he

/-- Every update emitted by a whole stream, starting from the fresh state,
is the rounded percentage of one of its time matches against the
established duration. -/
theorem runChunks_out_spec (cs : List Chunk) :
    ∀ lp : ℚ, ∀ e ∈ (runChunksFrom ⟨0, lp⟩ cs).2, ∃ c ∈ cs, ∃ t, c.time = some t ∧
      e = round1 (toSeconds t / firstNonzeroDur cs * 100) := by
  induction cs with
  | nil => intro lp e he; simp [runChunksFrom] at he
  | cons c rest ih =>
      intro lp e he
      have he' : e ∈ (stepChunk ⟨0, lp⟩ c).2 ++
          (runChunksFrom (stepChunk ⟨0, lp⟩ c).1 rest).2 := he
      by_cases hz : durValue c = 0
      · rw [stepChunk_zero lp c hz] at he'
        simp only [List.nil_append] at he'
        rcases ih lp e he' with ⟨c', hc', t, hct, hval⟩
        refine ⟨c', List.mem_cons_of_mem _ hc', t, hct, ?_⟩
        rw [hval]
        have : firstNonzeroDur (c :: rest) = firstNonzeroDur rest := by
          show (if durValue c ≠ 0 then durValue c else firstNonzeroDur rest) = firstNonzeroDur rest
          rw [if_neg (by simpa using hz)]
        rw [this]
      · have hfz : firstNonzeroDur (c :: rest) = durValue c := by
          show (if durValue c ≠ 0 then durValue c else firstNonzeroDur rest) = durValue c
          rw [if_pos hz]
        have hcap : captureDur ⟨0, lp⟩ c = ⟨durValue c, lp⟩ := captureDur_zero lp c
        rcases List.mem_append.mp he' with hemem | hemem
        · unfold stepChunk at hemem
          rw [hcap] at hemem
          rcases emitTimeAux_out _ _ e hemem with ⟨t, hct, hval⟩
          exact ⟨c, List.mem_cons_self _ _, t, hct, by rw [hval, hfz]⟩
        · have hd1 : (stepChunk ⟨0, lp⟩ c).1.duration = durValue c := by
            unfold stepChunk
            rw [hcap, emitTime_duration]
          rcases runChunksFrom_out_ne rest _ (by rw [hd1]; exact hz) e hemem
            with ⟨c', hc', t, hct, hval⟩
          rw [hd1] at hval
          exact ⟨c', List.mem_cons_of_mem _ hc', t, hct, by rw [hval, hfz]⟩

/-- Per-step throttle characterization: with a known positive duration and
a time match, the update is applied (state changed and a render emitted)
exactly when the rounded percentage moved by at least 0.1. -/
theorem stepChunk_throttle (st : PState) (c : Chunk) (t : Nat × Nat × ℚ)
    (hd : st.duration > 0) (hct : c.time = some t) :
    (1/10 ≤ |round1 (toSeconds t / st.duration * 100) - st.lastProgress| →
      stepChunk st c =
        ({ duration := st.duration,
           lastProgress := round1 (toSeconds t / st.duration * 100) },
         [round1 (toSeconds t / st.duration * 100)])) ∧
    (¬ 1/10 ≤ |round1 (toSeconds t / st.duration * 100) - st.lastProgress| →
      stepChunk st c = (st, [])) := by
  have hne : st.duration ≠ 0 := ne_of_gt hd
  have hcap : captureDur st c = st := captureDur_ne st c hne
  constructor
  · intro hth
    unfold stepChunk emitTime
    rw [hcap, hct]
    simp only [emitTimeAux]
    rw [if_pos hd, if_pos hth]
  · intro hth
    unfold stepChunk emitTime
    rw [hcap, hct]
    simp only [emitTimeAux]
    rw [if_pos hd, if_neg hth]

/-- A run of consecutive below-threshold updates leaves the state (and in
particular lastProgress) unchanged and emits no render. -/
theorem runChunksFrom_throttled (cs : List Chunk) :
    ∀ st : PState, st.duration > 0 →
    (∀ c ∈ cs, ∀ t, c.time = some t →
      |round1 (toSeconds t / st.duration * 100) - st.lastProgress| < 1/10) →
    runChunksFrom st cs = (st, []) := by
  induction cs with
  | nil => intro st _ _; rfl
  | cons c rest ih =>
      intro st hd hsmall
      have hne : st.duration ≠ 0 := ne_of_gt hd
      have hstep : stepChunk st c = (st, []) := by
        rcases hct : c.time with _ | t
        · unfold stepChunk emitTime
          rw [captureDur_ne st c hne, hct]
          rfl
        · exact (stepChunk_throttle st c t hd hct).2
            (not_le.mpr (hsmall c (List.mem_cons_self _ _) t hct))
      show ((runChunksFrom (stepChunk st c).1 rest).1,
        (stepChunk st c).2 ++ (runChunksFrom (stepChunk st c).1 rest).2) = (st, [])
      rw [hstep]
      rw [ih st hd (fun g hg => hsmall g (List.mem_cons_of_mem _ hg))]
      rfl

/-! ## BatchOrchestrator (batchProcess, processBatch and main in src/bin.js)

The while-loop of batchProcess slices the matches into consecutive batches
of BATCH_SIZE = 10, awaits processBatch (which fans out one processVideo
per pair and awaits them all through Promise.all), prints the batch
summary, and — when pairs remain — suspends on a stdin keypress before the
next iteration.  The loop is modelled as a trace of events per batch:
the spawns of the batch's encoder processes, their settlements (each
conversion settles exactly once, with the success flag supplied by an
oracle standing for the encoder's exit status), and an operator
acknowledgment after every batch except the last.  Within a batch the
settlement order is not constrained by the code; the trace lists the
batch's settlements in slice order, which is harmless for the cross-batch
properties proved here. -/

def BATCH_SIZE : Nat := 10

inductive Ev where
  | spawn (file : String)
  | settle (file : String) (success : Bool)
  | ack
deriving DecidableEq

def pairLabel (m : MatchedPair) : String := basename m.video

def batchTrace (oracle : MatchedPair → Bool) (batch : List MatchedPair) : List Ev :=
  batch.map (fun m => Ev.spawn (pairLabel m)) ++
    batch.map (fun m => Ev.settle (pairLabel m) (oracle m))

/-- Per-iteration event blocks of the batchProcess while-loop. -/
def batchBlocks (oracle : MatchedPair → Bool) (l : List MatchedPair) : List (List Ev) :=
  if l = [] then []
  else
    (batchTrace oracle (l.take BATCH_SIZE) ++
      (if l.drop BATCH_SIZE = [] then [] else [Ev.ack])) ::
      batchBlocks oracle (l.drop BATCH_SIZE)
termination_by l.length
decreasing_by
  rename_i h
  simp only [List.length_drop]
  have := List.length_pos.mpr h
  simp [BATCH_SIZE]
  omega

def runTrace (oracle : MatchedPair → Bool) (l : List MatchedPair) : List Ev :=
  (batchBlocks oracle l).flatten

def isSettle : Ev → Bool
  | .settle _ _ => true
  | _ => false

def isSpawn : Ev → Bool
  | .spawn _ => true
  | _ => false

def settleCount (evs : List Ev) : Nat := evs.countP isSettle

def spawnCount (evs : List Ev) : Nat := evs.countP isSpawn

/-- The k-th batch (0-based) of the match list. -/
def batchOf (l : List MatchedPair) (k : Nat) : List MatchedPair :=
  (l.drop (BATCH_SIZE * k)).take BATCH_SIZE

/-! ### Run report (batchProcess with its try/catch, and main) -/

structure RunReport where
  dirCreated : Bool
  topError : Option String
  noMatchesMsg : Bool
  trace : List Ev
deriving DecidableEq

/-- batchProcess: create the output directory, read the input directory
and match files, return after a message when nothing matched, otherwise
run the batches.  Its catch-all swallows any filesystem error after
reporting it, so batchProcess always returns normally. -/
def batchProcess (oracle : MatchedPair → Bool) (mkdirR : Except String Unit)
    (readdirR : Except String (List String)) (inputDir : String) : RunReport :=
  match mkdirR with
  | .error e => { dirCreated := false, topError := some e, noMatchesMsg := false, trace := [] }
  | .ok _ =>
      match readdirR with
      | .error e => { dirCreated := true, topError := some e, noMatchesMsg := false, trace := [] }
      | .ok files =>
          let ms := findMatchingFiles inputDir files
          if ms.isEmpty then
            { dirCreated := true, topError := none, noMatchesMsg := true, trace := [] }
          else
            { dirCreated := true, topError := none, noMatchesMsg := false,
              trace := runTrace oracle ms }

/-- main: usage check (exit 1 on wrong argument count), stat of the input
path (exit 1 when stat fails or the path is not a directory), then await
batchProcess — whose internal catch swallows every later error, so the
process ends with exit status 0.  Returns the exit status and the run
report when batchProcess was reached. -/
def mainRun (oracle : MatchedPair → Bool) (args : List String)
    (statR : Except String Bool) (mkdirR : Except String Unit)
    (readdirR : Except String (List String)) : Nat × Option RunReport :=
  if args.length ≠ 2 then (1, none)
  else
    match statR with
    | .error _ => (1, none)
    | .ok isDir =>
        if isDir then
          (0, some (batchProcess oracle mkdirR readdirR (args.headI)))
        else (1, none)

/-! ### Batch loop lemmas -/

theorem batchBlocks_nil (oracle : MatchedPair → Bool) : batchBlocks oracle [] = [] := by
  unfold batchBlocks
  rw [if_pos rfl]

theorem batchBlocks_cons (oracle : MatchedPair → Bool) (l : List MatchedPair) (h : l ≠ []) :
    batchBlocks oracle l =
      (batchTrace oracle (l.take BATCH_SIZE) ++
        (if l.drop BATCH_SIZE = [] then [] else [Ev.ack])) ::
        batchBlocks oracle (l.drop BATCH_SIZE) := by
  conv_lhs => unfold batchBlocks
  rw [if_neg h]

theorem countP_isSettle_map_spawn (f : MatchedPair → String) (batch : List MatchedPair) :
    (batch.map (fun m => Ev.spawn (f m))).countP isSettle = 0 := by
  induction batch with
  | nil => rfl
  | cons m rest ih =>
      rw [List.map_cons, List.countP_cons, ih]
      rfl

theorem countP_isSettle_map_settle (f : MatchedPair → String) (g : MatchedPair → Bool)
    (batch : List MatchedPair) :
    (batch.map (fun m => Ev.settle (f m) (g m))).countP isSettle = batch.length := by
  induction batch with
  | nil => rfl
  | cons m rest ih =>
      rw [List.map_cons, List.countP_cons, ih, List.length_cons]
      rfl

theorem settleCount_batchTrace (oracle : MatchedPair → Bool) (batch : List MatchedPair) :
    settleCount (batchTrace oracle batch) = batch.length := by
  unfold settleCount batchTrace
  rw [List.countP_append, countP_isSettle_map_spawn, countP_isSettle_map_settle]
  omega

theorem settleCount_ackIf (b : Bool) :
    settleCount (if b then [] else [Ev.ack]) = 0 := by
  cases b <;> rfl

/-- Finished count after k iterations of the loop: the settlements in the
first k batch blocks number min(k * BATCH_SIZE, N). -/
theorem settleCount_take_blocks (oracle : MatchedPair → Bool) :
    ∀ (k : Nat) (l : List MatchedPair),
    settleCount (((batchBlocks oracle l).take k).flatten) = min (k * BATCH_SIZE) l.length := by
  intro k
  induction k with
  | zero => intro l; simp [settleCount]
  | succ k ih =>
      intro l
      by_cases hl : l = []
      · subst hl
        simp [batchBlocks_nil, settleCount]
      · rw [batchBlocks_cons oracle l hl, List.take_succ_cons, List.flatten_cons]
        unfold settleCount at *
        rw [List.countP_append]
        have h1 : (batchTrace oracle (l.take BATCH_SIZE) ++
            (if l.drop BATCH_SIZE = [] then [] else [Ev.ack])).countP isSettle =
            min BATCH_SIZE l.length := by
          rw [List.countP_append]
          have := settleCount_batchTrace oracle (l.take BATCH_SIZE)
          unfold settleCount at this
          rw [this, List.length_take]
          have := settleCount_ackIf (decide (l.drop BATCH_SIZE = []))
          unfold settleCount at this
          rcases ha : l.drop BATCH_SIZE with _ | _
          · rfl
          · rfl
        rw [h1, ih (l.drop BATCH_SIZE), List.length_drop]
        have hB : BATCH_SIZE = 10 := rfl
        rw [hB] at *
        omega

/-- The k-th block of the loop trace, when batch k is nonempty. -/
theorem batchBlocks_get? (oracle : MatchedPair → Bool) :
    ∀ (k : Nat) (l : List MatchedPair),
    (batchBlocks oracle l).get? k =
      if batchOf l k = [] then none
      else some (batchTrace oracle (batchOf l k) ++
        (if l.drop (BATCH_SIZE * (k + 1)) = [] then [] else [Ev.ack])) := by
  intro k
  induction k with
  | zero =>
      intro l
      by_cases hl : l = []
      · subst hl
        simp [batchBlocks_nil, batchOf]
      · rw [batchBlocks_cons oracle l hl]
        have hb0 : batchOf l 0 = l.take BATCH_SIZE := by
          unfold batchOf
          rw [Nat.mul_zero, List.drop_zero]
        have hne : batchOf l 0 ≠ [] := by
          rw [hb0]
          intro hc
          apply hl
          cases l with
          | nil => rfl
          | cons x xs => simp [BATCH_SIZE, List.take] at hc
        rw [if_neg hne]
        simp only [List.get?]
        rw [hb0, Nat.mul_one]
  | succ k ih =>
      intro l
      by_cases hl : l = []
      · subst hl
        simp [batchBlocks_nil, batchOf]
      · rw [batchBlocks_cons oracle l hl]
        simp only [List.get?]
        rw [ih (l.drop BATCH_SIZE)]
        have hbatch : batchOf (l.drop BATCH_SIZE) k = batchOf l (k + 1) := by
          unfold batchOf
          rw [List.drop_drop]
          congr 1
          ring
        have hdrop : (l.drop BATCH_SIZE).drop (BATCH_SIZE * (k + 1)) =
            l.drop (BATCH_SIZE * (k + 2)) := by
          rw [List.drop_drop]
          congr 1
          ring
        rw [hbatch, hdrop]

/-- Every spawn event in the first j blocks belongs to a pair among the
first j * BATCH_SIZE matches. -/
theorem spawn_mem_take_blocks (oracle : MatchedPair → Bool) :
    ∀ (j : Nat) (l : List MatchedPair) (e : Ev),
    e ∈ ((batchBlocks oracle l).take j).flatten → isSpawn e = true →
    ∃ m ∈ l.take (j * BATCH_SIZE), e = Ev.spawn (pairLabel m) := by
  intro j
  induction j with
  | zero => intro l e he _; simp at he
  | succ j ih =>
      intro l e he hsp
      by_cases hl : l = []
      · subst hl
        rw [batchBlocks_nil] at he
        simp at he
      · rw [batchBlocks_cons oracle l hl, List.take_succ_cons, List.flatten_cons] at he
        rcases List.mem_append.mp he with he | he
        · rcases List.mem_append.mp he with he | he
          · unfold batchTrace at he
            rcases List.mem_append.mp he with he | he
            · rcases List.mem_map.mp he with ⟨m, hm, hme⟩
              refine ⟨m, ?_, hme.symm⟩
              have : l.take BATCH_SIZE = (l.take ((j + 1) * BATCH_SIZE)).take BATCH_SIZE := by
                rw [List.take_take]
                congr 1
                have : BATCH_SIZE ≤ (j + 1) * BATCH_SIZE := by
                  have : 1 * BATCH_SIZE ≤ (j + 1) * BATCH_SIZE :=
                    Nat.mul_le_mul_right _ (by omega)
                  simpa using this
                omega
              rw [this] at hm
              exact List.take_subset _ _ hm
            · rcases List.mem_map.mp he with ⟨m, _, hme⟩
              rw [← hme] at hsp
              simp [isSpawn] at hsp
          · rcases hd : l.drop BATCH_SIZE with _ | _
            · rw [hd] at he; simp at he
            · rw [hd] at he
              simp only [if_neg (by simp : ¬ (_ :: _ : List MatchedPair) = []),
                List.mem_singleton] at he
              rw [he] at hsp
              simp [isSpawn] at hsp
        · rcases ih (l.drop BATCH_SIZE) e he hsp with ⟨m, hm, hme⟩
          refine ⟨m, ?_, hme⟩
          have heq : (l.drop BATCH_SIZE).take (j * BATCH_SIZE) =
              (l.take (BATCH_SIZE + j * BATCH_SIZE)).drop BATCH_SIZE := by
            rw [List.drop_take]
            congr 1
            omega
          rw [heq] at hm
          have hsub := List.drop_subset BATCH_SIZE (l.take (BATCH_SIZE + j * BATCH_SIZE))
          have hm2 := hsub hm
          have : BATCH_SIZE + j * BATCH_SIZE = (j + 1) * BATCH_SIZE := by ring
          rw [this] at hm2
          exact hm2

/-- Every non-final block of the loop ends with the operator
acknowledgment event. -/
theorem batchBlocks_ack (oracle : MatchedPair → Bool) (l : List MatchedPair)
    (k : Nat) (blk : List Ev)
    (h1 : (batchBlocks oracle l).get? k = some blk)
    (h2 : (batchBlocks oracle l).get? (k + 1) ≠ none) :
    blk.getLast? = some Ev.ack := by
  rw [batchBlocks_get?] at h1 h2
  by_cases hk : batchOf l k = []
  · rw [if_pos hk] at h1
    exact absurd h1 (by simp)
  · rw [if_neg hk] at h1
    by_cases hk2 : batchOf l (k + 1) = []
    · rw [if_pos hk2] at h2
      exact absurd rfl h2
    · have hdrop : l.drop (BATCH_SIZE * (k + 1)) ≠ [] := by
        intro hc
        apply hk2
        unfold batchOf
        rw [hc]
        rfl
      simp only [Option.some.injEq] at h1
      rw [← h1, if_neg hdrop]
      exact List.getLast?_concat _

/-! ### Lemmas about unclassified entries (neither extension list) -/

theorem classifyAux_append (dir : String) :
    ∀ (l₁ l₂ : List String) (acc : List (List Char × String) × List (List Char × String)),
    classifyAux dir (l₁ ++ l₂) acc = classifyAux dir l₂ (classifyAux dir l₁ acc) := by
  intro l₁
  induction l₁ with
  | nil => intro l₂ acc; rfl
  | cons f rest ih =>
      intro l₂ acc
      obtain ⟨vs, ss⟩ := acc
      by_cases hv : isVideo f
      · simp only [List.cons_append, classifyAux, if_pos hv]
        exact ih l₂ _
      · by_cases hs : isSubtitle f
        · simp only [List.cons_append, classifyAux, if_neg hv, if_pos hs]
          exact ih l₂ _
        · simp only [List.cons_append, classifyAux, if_neg hv, if_neg hs]
          exact ih l₂ _

theorem classifyAux_skip (dir f : String)
    (acc : List (List Char × String) × List (List Char × String))
    (hv : isVideo f = false) (hs : isSubtitle f = false) :
    classifyAux dir [f] acc = acc := by
  obtain ⟨vs, ss⟩ := acc
  simp only [classifyAux, if_neg (by rw [hv]; simp : ¬ isVideo f = true),
    if_neg (by rw [hs]; simp : ¬ isSubtitle f = true)]

/-- An entry classified into neither class leaves both mappings, and
therefore the matching result, unchanged. -/
theorem classifyFiles_skip (dir : String) (pre post : List String) (f : String)
    (hv : isVideo f = false) (hs : isSubtitle f = false) :
    classifyFiles dir (pre ++ f :: post) = classifyFiles dir (pre ++ post) := by
  unfold classifyFiles
  have h1 : pre ++ f :: post = (pre ++ [f]) ++ post := by simp
  rw [h1, classifyAux_append, classifyAux_append, classifyAux_append, classifyAux_skip dir f _ hv hs]

theorem finishes_labels_nodup : ∀ ops : List TOp, NoOpAfterFinish ops →
    ((finishes ops).map Prod.fst).Nodup := by
  intro ops
  induction ops using List.reverseRecOn with
  | nil => intro _; simp [finishes]
  | append_singleton ops op ih =>
      intro hwf
      have hpre := noOpAfterFinish_front ops op hwf
      have hlast := noOpAfterFinish_last ops op hwf
      cases op with
      | register l' =>
          have hfin : finishes (ops ++ [TOp.register l']) = finishes ops := by
            simp [finishes, List.filterMap_append]
          rw [hfin]
          exact ih hpre
      | update l' p =>
          have hfin : finishes (ops ++ [TOp.update l' p]) = finishes ops := by
            simp [finishes, List.filterMap_append]
          rw [hfin]
          exact ih hpre
      | finish l' b' =>
          have hfin : finishes (ops ++ [TOp.finish l' b']) = finishes ops ++ [(l', b')] := by
            simp [finishes, List.filterMap_append]
          rw [hfin, List.map_append]
          refine (ih hpre).append (by simp) ?_
          intro a ha hb
          simp only [List.map_cons, List.map_nil, List.mem_singleton] at hb
          subst hb
          rcases List.mem_map.mp ha with ⟨pr, hpr, hfst⟩
          exact hlast pr.1 pr.2 (by simpa using hpr) (by rw [hfst]; rfl)

/-! ## Claim theorems -/

/-- C2: the claim is right and the code is wrong on the process-launch
error outcome.  Node's child_process contract emits the close event (with
a null exit code) after the error event when the child fails to spawn, so
BOTH of processVideo's handlers run for the same item: the error handler
deletes the entry, increments completed and records the failure, then the
close handler (null is not 0) deletes again, increments completed a
SECOND time and records the failure again.  The operation trace of a
single item whose encoder cannot be launched is therefore register,
finish(false), finish(false); evaluating the STATUS machine on it: the
completed counter ends at 2 although exactly one item was finished — its
label is held once in results with the failure flag and it is gone from
the in-flight map, so the removal and the result record are effectively
once, but the completed increment is not.  This contradicts the claim
(and the spec's ProgressTracker invariant), which say completed is
incremented exactly once per conversion attempt in all three outcomes. -/
theorem spec_C2 :
    (runOps [TOp.register "a.mp4", TOp.finish "a.mp4" false,
      TOp.finish "a.mp4" false]).completed = 2 ∧
    ((runOps [TOp.register "a.mp4", TOp.finish "a.mp4" false,
      TOp.finish "a.mp4" false]).results.map Prod.fst) = ["a.mp4"] ∧
    mapGet (runOps [TOp.register "a.mp4", TOp.finish "a.mp4" false,
      TOp.finish "a.mp4" false]).results "a.mp4" = some false ∧
    mapGet (runOps [TOp.register "a.mp4", TOp.finish "a.mp4" false,
      TOp.finish "a.mp4" false]).inProgress "a.mp4" = none := by
  refine ⟨?_, ?_, ?_, ?_⟩ <;> rfl

/-- C3 as stated fails on the code: the capture guard is `if (!duration)`,
so a first Duration marker parsing to 0 leaves the variable falsy and a
LATER Duration marker is captured and drives progress updates.  Stream:
first chunk carries Duration 00:00:00.00, second carries Duration
00:00:10.00, third carries time=00:00:05.00.  The run emits the update
50.0 computed from the second (later) marker and ends with duration 10,
not the first occurrence's value 0; removing the later marker changes the
behavior, so later markers are not ignored. -/
theorem spec_C3_counterexample :
    (runChunks [Chunk.mk (some (0, 0, 0)) none, Chunk.mk (some (0, 0, 10)) none,
      Chunk.mk none (some (0, 0, 5))]).2 = [50] ∧
    (runChunks [Chunk.mk (some (0, 0, 0)) none, Chunk.mk none none,
      Chunk.mk none (some (0, 0, 5))]).2 = [] ∧
    (runChunks [Chunk.mk (some (0, 0, 0)) none, Chunk.mk (some (0, 0, 10)) none,
      Chunk.mk none (some (0, 0, 5))]).1.duration = 10 ∧
    toSeconds (0, 0, 0) = 0 := by
  refine ⟨?_, ?_, ?_, ?_⟩ <;>
    norm_num [runChunks, runChunksFrom, stepChunk, captureDur, captureDurAux,
      emitTime, emitTimeAux, toSeconds, round1]

/-- C3 amended: the duration is captured from the first Duration marker
whose parsed value is nonzero (markers parsing to 0 leave it unset and
scanning continues); once captured it never changes; if no marker with a
nonzero value ever appears, no progress update is emitted; and every
forwarded percentage is 100 * position / duration rounded to one decimal,
against the captured duration. -/
theorem spec_C3 : ∀ cs : List Chunk,
    ((runChunks cs).1.duration = firstNonzeroDur cs) ∧
    ((∀ c ∈ cs, durValue c = 0) → (runChunks cs).2 = []) ∧
    (∀ e ∈ (runChunks cs).2, ∃ c ∈ cs, ∃ t, c.time = some t ∧
      e = round1 (toSeconds t / firstNonzeroDur cs * 100)) := by
  intro cs
  refine ⟨runChunksFrom_duration cs 0, ?_, ?_⟩
  · intro h
    show (runChunksFrom ⟨0, 0⟩ cs).2 = []
    rw [runChunksFrom_zero_out cs h 0]
  · exact runChunks_out_spec cs 0

theorem spec_C3_witness :
    ((runChunks [Chunk.mk (some (0, 0, 10)) none, Chunk.mk none (some (0, 0, 5))]).1.duration =
      firstNonzeroDur [Chunk.mk (some (0, 0, 10)) none, Chunk.mk none (some (0, 0, 5))]) ∧
    ((runChunks [Chunk.mk (some (0, 0, 0)) none, Chunk.mk none (some (0, 0, 5))]).2 = []) ∧
    (∃ c ∈ [Chunk.mk (some (0, 0, 10)) none, Chunk.mk none (some (0, 0, 5))],
      ∃ t, c.time = some t ∧ (50 : ℚ) = round1 (toSeconds t /
        firstNonzeroDur [Chunk.mk (some (0, 0, 10)) none, Chunk.mk none (some (0, 0, 5))]
          * 100)) :=
  ⟨(spec_C3 [Chunk.mk (some (0, 0, 10)) none, Chunk.mk none (some (0, 0, 5))]).1,
   (spec_C3 [Chunk.mk (some (0, 0, 0)) none, Chunk.mk none (some (0, 0, 5))]).2.1
     (by
       intro c hc
       simp only [List.mem_cons, List.not_mem_nil, or_false, List.mem_singleton] at hc
       rcases hc with h | h <;> subst h <;> norm_num [durValue, toSeconds]),
   (spec_C3 [Chunk.mk (some (0, 0, 10)) none, Chunk.mk none (some (0, 0, 5))]).2.2 50
     (by
       norm_num [runChunks, runChunksFrom, stepChunk, captureDur, captureDurAux,
         emitTime, emitTimeAux, toSeconds, round1])⟩

/-- C6: with a known positive duration, a percentage update for an
in-flight item is applied — the recorded value changes and a render is
emitted — exactly when the new (rounded) value differs from the last
recorded value by at least 0.1; and a whole run of consecutive updates
with deltas below 0.1 leaves the state unchanged and emits no render. -/
theorem spec_C6 :
    (∀ (st : PState) (c : Chunk) (t : Nat × Nat × ℚ),
      st.duration > 0 → c.time = some t →
      (((stepChunk st c).2 ≠ []) ↔
        1/10 ≤ |round1 (toSeconds t / st.duration * 100) - st.lastProgress|) ∧
      (1/10 ≤ |round1 (toSeconds t / st.duration * 100) - st.lastProgress| →
        stepChunk st c =
          ({ duration := st.duration,
             lastProgress := round1 (toSeconds t / st.duration * 100) },
           [round1 (toSeconds t / st.duration * 100)])) ∧
      (|round1 (toSeconds t / st.duration * 100) - st.lastProgress| < 1/10 →
        stepChunk st c = (st, []))) ∧
    (∀ (st : PState) (cs : List Chunk),
      st.duration > 0 →
      (∀ c ∈ cs, ∀ t, c.time = some t →
        |round1 (toSeconds t / st.duration * 100) - st.lastProgress| < 1/10) →
      runChunksFrom st cs = (st, [])) := by
  constructor
  · intro st c t hd hct
    obtain ⟨happly, hskip⟩ := stepChunk_throttle st c t hd hct
    refine ⟨⟨?_, ?_⟩, happly, fun hlt => hskip (not_le.mpr hlt)⟩
    · intro hne
      by_contra hth
      rw [hskip hth] at hne
      exact hne rfl
    · intro hth
      rw [happly hth]
      simp
  · exact fun st cs hd hsmall => runChunksFrom_throttled cs st hd hsmall

theorem spec_C6_witness :
    (stepChunk ⟨10, 0⟩ (Chunk.mk none (some (0, 0, 5))) = (⟨10, 50⟩, [50])) ∧
    (runChunksFrom ⟨1000, 50⟩ [Chunk.mk none (some (0, 0, 500))] = (⟨1000, 50⟩, [])) :=
  ⟨by
    have h := (spec_C6.1 ⟨10, 0⟩ (Chunk.mk none (some (0, 0, 5))) (0, 0, 5)
      (by norm_num) rfl).2.1 (by norm_num [round1, toSeconds])
    rw [h]
    norm_num [round1, toSeconds],
   spec_C6.2 ⟨1000, 50⟩ [Chunk.mk none (some (0, 0, 500))] (by norm_num)
    (by
      intro c hc t hct
      simp only [List.mem_singleton] at hc
      subst hc
      simp only [Option.some.injEq] at hct
      subst hct
      norm_num [round1, toSeconds])⟩

/-- C4: for every directory listing containing a video file V and a
subtitle file S whose normalized basenames are equal — normalization
lower-cases the name without extension and strips whitespace, hyphens,
underscores, brackets and parentheses, and extension classification
against the allow-lists is case-insensitive — and in which V is the only
video and S the only subtitle with that key, FileMatcher produces exactly
one MatchedPair{V, S}; a video with no subtitle of matching normalized
name (or vice versa) produces no pair. -/
theorem spec_C4 :
    (∀ (dir : String) (files : List String) (V S : String),
      V ∈ files → isVideo V = true → S ∈ files → isSubtitle S = true →
      normalizeName S = normalizeName V →
      (∀ f ∈ files, isVideo f = true → normalizeName f = normalizeName V → f = V) →
      (∀ f ∈ files, isSubtitle f = true → normalizeName f = normalizeName V → f = S) →
      (findMatchingFiles dir files).countP
        (fun p => decide (p = MatchedPair.mk (pathJoin dir V) (pathJoin dir S))) = 1) ∧
    (∀ (dir : String) (files : List String) (V : String),
      V ∈ files → isVideo V = true →
      (∀ f ∈ files, isSubtitle f = true → normalizeName f ≠ normalizeName V) →
      (findMatchingFiles dir files).countP (fun p => p.video == pathJoin dir V) = 0) ∧
    (∀ (dir : String) (files : List String) (S : String),
      S ∈ files → isSubtitle S = true →
      (∀ f ∈ files, isVideo f = true → normalizeName f ≠ normalizeName S) →
      (findMatchingFiles dir files).countP (fun p => p.subtitle == pathJoin dir S) = 0) :=
  ⟨fun dir files V S h1 h2 h3 h4 h5 h6 h7 =>
      matches_count_of_unique dir files V S h1 h2 h3 h4 h5 h6 h7,
   fun dir files V h1 h2 h3 => (matches_none_of_missing dir files).1 V h1 h2 h3,
   fun dir files S h1 h2 h3 => (matches_none_of_missing dir files).2 S h1 h2 h3⟩

theorem spec_C4_witness :
    ((findMatchingFiles "in" ["movie.mp4", "[Movie].srt", "notes.txt"]).countP
      (fun p => decide (p =
        MatchedPair.mk (pathJoin "in" "movie.mp4") (pathJoin "in" "[Movie].srt"))) = 1) ∧
    ((findMatchingFiles "in" ["a.mp4", "b.srt"]).countP
      (fun p => p.video == pathJoin "in" "a.mp4") = 0) ∧
    ((findMatchingFiles "in" ["a.mp4", "b.srt"]).countP
      (fun p => p.subtitle == pathJoin "in" "b.srt") = 0) :=
  ⟨spec_C4.1 "in" ["movie.mp4", "[Movie].srt", "notes.txt"] "movie.mp4" "[Movie].srt"
      (by decide) (by decide) (by decide) (by decide) (by decide) (by decide) (by decide),
   spec_C4.2.1 "in" ["a.mp4", "b.srt"] "a.mp4" (by decide) (by decide) (by decide),
   spec_C4.2.2 "in" ["a.mp4", "b.srt"] "b.srt" (by decide) (by decide) (by decide)⟩

/-- C5: when several files of the same class normalize to the same key the
later-enumerated file overwrites the earlier one (last-wins): with two
colliding videos V1 (earlier) and V2 (later) and one subtitle S with that
key, exactly one pair is produced — never two and never zero — and its
video path is V2's path, while V1's path appears in no pair. -/
theorem spec_C5 : ∀ (dir : String) (A B C : List String) (V1 V2 S : String),
    isVideo V1 = true → isVideo V2 = true → V1 ≠ V2 →
    normalizeName V1 = normalizeName V2 →
    isSubtitle S = true → S ∈ A ++ V1 :: B ++ V2 :: C →
    normalizeName S = normalizeName V2 →
    (∀ f ∈ A ++ V1 :: B ++ V2 :: C,
      isSubtitle f = true → normalizeName f = normalizeName V2 → f = S) →
    (∀ f ∈ C, isVideo f = true → normalizeName f ≠ normalizeName V2) →
    ((findMatchingFiles dir (A ++ V1 :: B ++ V2 :: C)).countP
      (fun p => decide (p = MatchedPair.mk (pathJoin dir V2) (pathJoin dir S))) = 1) ∧
    ((findMatchingFiles dir (A ++ V1 :: B ++ V2 :: C)).countP
      (fun p => p.video == pathJoin dir V1) = 0) :=
  fun dir A B C V1 V2 S h1 h2 h3 h4 h5 h6 h7 h8 h9 =>
    matches_collision dir A B C V1 V2 S h1 h2 h3 h4 h5 h6 h7 h8 h9

theorem spec_C5_witness :
    ((findMatchingFiles "in" ["movie.mp4", "Movie.mkv", "movie.srt"]).countP
      (fun p => decide (p =
        MatchedPair.mk (pathJoin "in" "Movie.mkv") (pathJoin "in" "movie.srt"))) = 1) ∧
    ((findMatchingFiles "in" ["movie.mp4", "Movie.mkv", "movie.srt"]).countP
      (fun p => p.video == pathJoin "in" "movie.mp4") = 0) :=
  spec_C5 "in" [] [] ["movie.srt"] "movie.mp4" "Movie.mkv" "movie.srt"
    (by decide) (by decide) (by decide) (by decide) (by decide) (by decide) (by decide)
    (by decide) (by decide)

/-- C9: a directory entry whose lower-cased extension is in neither the
video allow-list nor the subtitle allow-list is silently ignored: it
lands in neither class mapping and contributes to no pair. -/
theorem spec_C9 : ∀ (dir : String) (pre post : List String) (f : String),
    extLower f ∉ videoExtensions → extLower f ∉ subtitleExtensions →
    classifyFiles dir (pre ++ f :: post) = classifyFiles dir (pre ++ post) ∧
    findMatchingFiles dir (pre ++ f :: post) = findMatchingFiles dir (pre ++ post) := by
  intro dir pre post f hv hs
  have hv' : isVideo f = false := by simp [isVideo, hv]
  have hs' : isSubtitle f = false := by simp [isSubtitle, hs]
  have h := classifyFiles_skip dir pre post f hv' hs'
  refine ⟨h, ?_⟩
  unfold findMatchingFiles
  rw [h]

theorem spec_C9_witness :
    classifyFiles "in" (["a.mp4"] ++ "readme.txt" :: ["a.srt"]) =
      classifyFiles "in" (["a.mp4"] ++ ["a.srt"]) ∧
    findMatchingFiles "in" (["a.mp4"] ++ "readme.txt" :: ["a.srt"]) =
      findMatchingFiles "in" (["a.mp4"] ++ ["a.srt"]) :=
  spec_C9 "in" ["a.mp4"] ["a.srt"] "readme.txt" (by decide) (by decide)

/-- C10: any two distinct pairs produced from one directory listing have
distinct video filename labels (path.basename of the video path), since
class keys are unique and the video path determines the file and hence the
key; directory entries contain no path separator. -/
theorem spec_C10 : ∀ (dir : String) (files : List String),
    (∀ f ∈ files, '/' ∉ f.data) →
    (findMatchingFiles dir files).Pairwise
      (fun p q => basename p.video ≠ basename q.video) :=
  fun dir files h => matches_pairwise_basename dir files h

theorem spec_C10_witness :
    (∀ f ∈ ["a.mp4", "a.srt", "b x.mp4", "bx.srt"], '/' ∉ f.data) ∧
    (findMatchingFiles "in" ["a.mp4", "a.srt", "b x.mp4", "bx.srt"]).Pairwise
      (fun p q => basename p.video ≠ basename q.video) :=
  ⟨by decide, spec_C10 "in" ["a.mp4", "a.srt", "b x.mp4", "bx.srt"] (by decide)⟩

/-- C1 as stated fails on the code: batchProcess wraps everything in a
try/catch whose handler only prints the error and returns, so a readdir
failure during matching (or an mkdir failure) is reported but never
propagates to main's catch — the process finishes with exit status 0, not
non-zero.  Concrete run: two valid arguments, the input path stats as a
directory, mkdir succeeds, readdir fails with EACCES: the run aborts early
(empty trace, no encoder spawned), the error is reported as the top-level
error, and the exit status is 0. -/
theorem spec_C1_counterexample :
    mainRun (fun _ => true) ["in", "out"] (Except.ok true) (Except.ok ())
      (Except.error "EACCES") =
      (0, some { dirCreated := true, topError := some "EACCES", noMatchesMsg := false, trace := [] }) := rfl

/-- C1 amended: if reading the input directory fails during matching, or
creating the output directory fails, the whole run aborts early (no pairs
processed, empty trace) and the error is reported — but the error is
swallowed by batchProcess's catch, so the process exits with status 0
rather than non-zero. -/
theorem spec_C1 : ∀ (oracle : MatchedPair → Bool) (args : List String)
    (e : String) (rd : Except String (List String)),
    args.length = 2 →
    (mainRun oracle args (Except.ok true) (Except.error e) rd =
      (0, some { dirCreated := false, topError := some e, noMatchesMsg := false, trace := [] })) ∧
    (mainRun oracle args (Except.ok true) (Except.ok ()) (Except.error e) =
      (0, some { dirCreated := true, topError := some e, noMatchesMsg := false, trace := [] })) := by
  intro oracle args e rd h
  refine ⟨?_, ?_⟩ <;>
  · unfold mainRun
    rw [if_neg (fun hc => hc h)]
    rfl

theorem spec_C1_witness :
    (mainRun (fun _ => true) ["in", "out"] (Except.ok true) (Except.error "EPERM")
        (Except.ok []) =
      (0, some { dirCreated := false, topError := some "EPERM", noMatchesMsg := false, trace := [] })) ∧
    (mainRun (fun _ => true) ["in", "out"] (Except.ok true) (Except.ok ())
        (Except.error "EPERM") =
      (0, some { dirCreated := true, topError := some "EPERM", noMatchesMsg := false, trace := [] })) :=
  spec_C1 (fun _ => true) ["in", "out"] "EPERM" (Except.ok []) rfl

/-- C8: a run whose matcher returns zero pairs is not an error: the
output directory has already been created, the no-matches message is
printed, no encoder is ever spawned (empty trace), no error is reported,
and the process exits with status 0. -/
theorem spec_C8 : ∀ (oracle : MatchedPair → Bool) (args files : List String),
    args.length = 2 →
    findMatchingFiles args.headI files = [] →
    mainRun oracle args (Except.ok true) (Except.ok ()) (Except.ok files) =
      (0, some { dirCreated := true, topError := none, noMatchesMsg := true, trace := [] }) := by
  intro oracle args files h hm
  unfold mainRun
  rw [if_neg (fun hc => hc h)]
  simp [batchProcess, hm]

theorem spec_C8_witness :
    mainRun (fun _ => true) ["in", "out"] (Except.ok true) (Except.ok ())
      (Except.ok ["notes.txt"]) =
      (0, some { dirCreated := true, topError := none, noMatchesMsg := true, trace := [] }) :=
  spec_C8 (fun _ => true) ["in", "out"] ["notes.txt"] rfl (by decide)

/-- C7: the pairs are processed in consecutive batches of BATCH_SIZE = 10,
strictly in sequence: the number of settled conversions after k batches is
min(k*10, N); the whole trace splits at any batch boundary, every
settlement of batch k lies in the first k+1 blocks while no spawn of batch
k+1 does (labels being unique per run); and every non-final block ends
with the operator acknowledgment before the next batch starts. -/
theorem spec_C7 : ∀ (oracle : MatchedPair → Bool) (l : List MatchedPair),
    (l.map pairLabel).Nodup →
    (∀ k : Nat, settleCount (((batchBlocks oracle l).take k).flatten) =
      min (k * BATCH_SIZE) l.length) ∧
    (∀ k : Nat,
      runTrace oracle l =
        ((batchBlocks oracle l).take (k + 1)).flatten ++
          ((batchBlocks oracle l).drop (k + 1)).flatten ∧
      (∀ m ∈ batchOf l k,
        Ev.settle (pairLabel m) (oracle m) ∈ ((batchBlocks oracle l).take (k + 1)).flatten) ∧
      (∀ m ∈ batchOf l (k + 1),
        Ev.spawn (pairLabel m) ∉ ((batchBlocks oracle l).take (k + 1)).flatten)) ∧
    (∀ (k : Nat) (blk : List Ev), (batchBlocks oracle l).get? k = some blk →
      (batchBlocks oracle l).get? (k + 1) ≠ none →
      blk.getLast? = some Ev.ack) := by
  intro oracle l hnd
  refine ⟨fun k => settleCount_take_blocks oracle k l, fun k => ⟨?_, ?_, ?_⟩,
    fun k blk h1 h2 => batchBlocks_ack oracle l k blk h1 h2⟩
  · rw [runTrace, ← List.flatten_append, List.take_append_drop]
  · intro m hm
    have hne : batchOf l k ≠ [] := List.ne_nil_of_mem hm
    have hget : (batchBlocks oracle l).get? k =
        some (batchTrace oracle (batchOf l k) ++
          (if l.drop (BATCH_SIZE * (k + 1)) = [] then [] else [Ev.ack])) := by
      rw [batchBlocks_get? oracle k l, if_neg hne]
    have hblk : (batchTrace oracle (batchOf l k) ++
        (if l.drop (BATCH_SIZE * (k + 1)) = [] then [] else [Ev.ack])) ∈
        (batchBlocks oracle l).take (k + 1) :=
      List.get?_mem (by rw [List.get?_take (Nat.lt_succ_self k)]; exact hget)
    apply List.mem_flatten.mpr
    refine ⟨_, hblk, ?_⟩
    apply List.mem_append_left
    unfold batchTrace
    apply List.mem_append_right
    exact List.mem_map_of_mem _ hm
  · intro m hm habs
    rcases spawn_mem_take_blocks oracle (k + 1) l _ habs rfl with ⟨m', hm', heq⟩
    have hlab : pairLabel m = pairLabel m' := by
      simpa using heq
    have hmdrop : m ∈ l.drop (BATCH_SIZE * (k + 1)) := List.take_subset _ _ hm
    have hsplit : l.map pairLabel =
        (l.take ((k + 1) * BATCH_SIZE)).map pairLabel ++
          (l.drop ((k + 1) * BATCH_SIZE)).map pairLabel := by
      rw [← List.map_append, List.take_append_drop]
    rw [hsplit] at hnd
    have hdisj := (List.nodup_append.mp hnd).2.2
    have h1 : pairLabel m' ∈ (l.take ((k + 1) * BATCH_SIZE)).map pairLabel :=
      List.mem_map_of_mem _ hm'
    have h2 : pairLabel m ∈ (l.drop ((k + 1) * BATCH_SIZE)).map pairLabel := by
      rw [show (k + 1) * BATCH_SIZE = BATCH_SIZE * (k + 1) from Nat.mul_comm _ _]
      exact List.mem_map_of_mem _ hmdrop
    rw [hlab] at h2
    exact hdisj h1 h2

/-- Eleven matched pairs: one full batch of ten and a final batch of one. -/
def demoPairs : List MatchedPair :=
  [⟨"v0.mp4", "s0.srt"⟩, ⟨"v1.mp4", "s1.srt"⟩, ⟨"v2.mp4", "s2.srt"⟩,
   ⟨"v3.mp4", "s3.srt"⟩, ⟨"v4.mp4", "s4.srt"⟩, ⟨"v5.mp4", "s5.srt"⟩,
   ⟨"v6.mp4", "s6.srt"⟩, ⟨"v7.mp4", "s7.srt"⟩, ⟨"v8.mp4", "s8.srt"⟩,
   ⟨"v9.mp4", "s9.srt"⟩, ⟨"v10.mp4", "s10.srt"⟩]

theorem spec_C7_witness :
    ((demoPairs.map pairLabel).Nodup) ∧
    (settleCount (((batchBlocks (fun _ => true) demoPairs).take 1).flatten) =
      min (1 * BATCH_SIZE) demoPairs.length) ∧
    (runTrace (fun _ => true) demoPairs =
      ((batchBlocks (fun _ => true) demoPairs).take 1).flatten ++
        ((batchBlocks (fun _ => true) demoPairs).drop 1).flatten) ∧
    (∀ m ∈ batchOf demoPairs 0,
      Ev.settle (pairLabel m) true ∈
        ((batchBlocks (fun _ => true) demoPairs).take 1).flatten) ∧
    (∀ m ∈ batchOf demoPairs 1,
      Ev.spawn (pairLabel m) ∉
        ((batchBlocks (fun _ => true) demoPairs).take 1).flatten) :=
  have h := spec_C7 (fun _ => true) demoPairs (by decide)
  ⟨by decide, h.1 1, (h.2.1 0).1, (h.2.1 0).2.1, (h.2.1 0).2.2⟩

end Ms2Mp4
